import Mathlib

/-!
# ks-devops: the generic resource query / list engine

A shallow embedding of `pkg/models/resources/v1alpha3/interface.go` (filtering, sorting,
pagination and transformation of an in-memory object list) together with the pagination
calculator of `pkg/apiserver/query`, and theorems about them.

Go `int` values are modelled by `Int`; Go strings by `String` (for valid UTF-8 the byte-wise
order of Go coincides with the code-point order used here).
-/

namespace KsDevops

/-! ## Package `query`: pagination -/

/-- Modelled from the spec: the struct `query.Pagination` of `pkg/apiserver/query/types.go`
(that file is not among the sources; only its test is). Spec §3: `{Limit int, Offset int}`. -/
structure Pagination where
  Limit : Int
  Offset : Int
deriving DecidableEq, Repr

/-- Modelled from the spec: the constant `query.DefaultLimit`, the fixed default limit that
non-positive limits normalise to. Its value is pinned by `TestPagination_GetValidPagination`:
`newPagination(-1, 0).GetValidPagination(1000)` is `(0, 10)`. -/
def DefaultLimit : Int := 10

/-- Modelled from the spec: the singleton `query.NoPagination`, the sentinel meaning
"no restriction". Spec §3 puts the sentinel in the `Limit` field ("Limit is either a positive
integer or the sentinel unlimited"); the tests name the limit `-1` "Unlimited". -/
def NoPagination : Pagination := { Limit := -1, Offset := 0 }

/-- Modelled from the spec: `newPagination(limit, offset)`, spec §4.4: negative offsets clamp
to `0`, non-positive limits normalise to the default limit. -/
def newPagination (limit offset : Int) : Pagination :=
  { Limit := if limit ≤ 0 then DefaultLimit else limit
    Offset := if offset < 0 then 0 else offset }

/-- Modelled from the spec: `(*Pagination).GetValidPagination(total)`, spec §4.4, written as
the Go method would be: the sentinel check first, then the over-range check, then the
clamped window. -/
def GetValidPagination (p : Pagination) (total : Int) : Int × Int :=
  if p.Limit = NoPagination.Limit then (0, total)
  else if p.Offset > total then (0, 0)
  else
    let startIndex := p.Offset
    let endIndex := startIndex + p.Limit
    if endIndex > total then (startIndex, total) else (startIndex, endIndex)

/-- The invariant spec §3 places on a `Pagination`: it is the sentinel, or it has a positive
limit and a non-negative offset. -/
def Pagination.Valid (p : Pagination) : Prop :=
  p = NoPagination ∨ (0 < p.Limit ∧ 0 ≤ p.Offset)

instance (p : Pagination) : Decidable p.Valid := by
  unfold Pagination.Valid; exact inferInstance

/-! ## Package `query`: fields, filters, queries -/

/-- The type `query.Field`, a string. -/
abbrev Field := String

/-- The type `query.Value`, a string. -/
abbrev Value := String

/-- Modelled from the spec: the constant `query.FieldName` (declared in the absent
`pkg/apiserver/query`); the source comments its case with `?sortBy=name`. -/
def FieldName : Field := "name"

/-- Modelled from the spec: the constant `query.FieldCreationTimeStamp`; the source comments
its case with `?sortBy=creationTimestamp`. -/
def FieldCreationTimeStamp : Field := "creationTimestamp"

/-- The struct `query.Filter`: one predicate instance handed to a filter function. -/
structure Filter where
  Field : Field
  Value : Value
deriving DecidableEq, Repr

/-- Modelled from the spec: the struct `query.Query` with the fields the tests of
`types_test.go` build. `Pagination` is a pointer in Go, `none` is the nil pointer; `Filters`
is a Go map, given here as the list of its entries. -/
structure Query where
  Pagination : Option Pagination
  SortBy : Field
  Ascending : Bool
  Filters : List (Field × Value)
  LabelSelector : String
deriving DecidableEq, Repr

/-! ## Objects -/

/-- An instant, as carried by `metav1.Time`; `Equal` and `After` compare instants. -/
structure Time where
  instant : Int
deriving DecidableEq, Repr

/-- The method `Equal` of `metav1.Time` on two non-nil times. -/
def Time.Equal (t u : Time) : Bool := decide (t.instant = u.instant)

/-- The method `After` of `time.Time`. -/
def Time.After (t u : Time) : Bool := decide (u.instant < t.instant)

/-- The fields of `metav1.OwnerReference` the default filter reads. -/
structure OwnerReference where
  UID : String
  Kind : String
deriving DecidableEq, Repr

/-- The fields of `metav1.ObjectMeta` read through the `metav1.Object` accessors. The two
maps are given as lists of entries. -/
structure ObjectMeta where
  Name : String
  Namespace : String
  UID : String
  CreationTimestamp : Time
  Labels : List (String × String)
  Annotations : List (String × String)
  OwnerReferences : List OwnerReference
deriving DecidableEq, Repr

/-- A value of interface type `runtime.Object`. Kubernetes objects are pointers to structs:
* `nilInterface` is the nil interface value;
* `nilPointer kind hasMeta` is a non-nil interface holding a nil pointer, `hasMeta` telling
  whether the pointer type has the `metav1.ObjectMetaAccessor` methods;
* `resource kind meta startTime` is a pointer to a struct that embeds `ObjectMeta`
  (`startTime` is `Status.StartTime` of a PipelineRun, `none` where there is none);
* `bare kind payload` is a pointer to a struct without the metadata accessors. -/
inductive Object where
  | nilInterface
  | nilPointer (kind : String) (hasMeta : Bool)
  | resource (kind : String) (meta : ObjectMeta) (startTime : Option Time)
  | bare (kind : String) (payload : String)
deriving DecidableEq, Repr

/-- The test `object == nil || reflect.ValueOf(object).IsNil()` of `DefaultList`. -/
def Object.isNil : Object → Bool
  | .nilInterface => true
  | .nilPointer _ _ => true
  | _ => false

/-- A value of type `interface{}` returned by a transform: a `runtime.Object` or an
arbitrary projection. The nil `interface{}` is `object nilInterface`. -/
inductive Transferred where
  | object (o : Object)
  | projection (data : String)
deriving DecidableEq, Repr

/-- The type assertion `transferred.(runtime.Object)`: it succeeds on a non-nil interface
whose dynamic type is an object type. -/
def Transferred.asObject : Transferred → Option Object
  | .object .nilInterface => none
  | .object o => some o
  | .projection _ => none

/-- The type `CompareFunc`: true when left is greater than right. -/
abbrev CompareFunc := Object → Object → Field → Bool

/-- The type `FilterFunc`. -/
abbrev FilterFunc := Object → Filter → Bool

/-- The type `TransformFunc`. -/
abbrev TransformFunc := Object → Transferred

/-- The function `NoTransformFunc` keeps the original data. -/
def NoTransformFunc : TransformFunc := fun object => Transferred.object object

/-- Modelled from the spec: `api.ListResult` as built by `api.NewListResult(items, total)`
(package `pkg/api` is not among the sources); spec §3: `{Items, TotalItems}`. -/
structure ListResult where
  Items : List Transferred
  TotalItems : Int
deriving DecidableEq, Repr

/-! ## `sort.Slice`

`sort.Slice` belongs to the Go standard library, not to the repository, and its algorithm
differs between Go releases. `DefaultList` therefore takes the sort as a parameter, and the
theorems assume of it only what `Conforms` below records. -/

/-- The type of `sort.Slice` specialised to a slice of objects: the `less` closure of
`DefaultList` reads the two elements currently at the given indices, so it is a function of
the elements. -/
abbrev SortSlice := (Object → Object → Bool) → List Object → List Object

/-- The requirement package `sort` puts on `less` (a strict weak ordering), on the elements
of one slice: `less` is transitive, and being unordered by `less` is transitive. -/
structure StrictWeakOn (less : Object → Object → Bool) (l : List Object) : Prop where
  irrefl : ∀ x ∈ l, less x x = false
  trans : ∀ x ∈ l, ∀ y ∈ l, ∀ z ∈ l, less x y = true → less y z = true → less x z = true
  incomp : ∀ x ∈ l, ∀ y ∈ l, ∀ z ∈ l, less x y = false → less y z = false → less x z = false

/-- What is assumed of `sort.Slice`:
* the result is a rearrangement of the slice;
* when `less` is a strict weak ordering of the elements, no element of the result is `less`
  than one before it;
* the sort compares elements at two different indices only, so on a slice without repeated
  elements the result depends on `less` at pairs of different elements only.
Nothing is assumed about the relative order of elements that `less` does not order: the
documentation of `sort.Slice` says the sort is not guaranteed to be stable. -/
structure SortSlice.Conforms (sortSlice : SortSlice) : Prop where
  perm : ∀ less l, List.Perm (sortSlice less l) l
  sorted : ∀ less l, StrictWeakOn less l →
    List.Pairwise (fun x y => less y x = false) (sortSlice less l)
  offDiagonal : ∀ less₁ less₂ l, l.Nodup →
    (∀ x ∈ l, ∀ y ∈ l, x ≠ y → less₁ x y = less₂ x y) → sortSlice less₁ l = sortSlice less₂ l

/-- One step of the inner loop of Go's `insertionSort_func`: the element `x` at index `j`
moves left while `less(j, j-1)`. The sorted part before `x` is given nearest element
first. -/
def insertBack (less : Object → Object → Bool) (x : Object) : List Object → List Object
  | [] => [x]
  | y :: ys => if less x y then y :: insertBack less x ys else x :: y :: ys

/-- The outer loop of Go's `insertionSort_func`: `rev` is the part already sorted, nearest
element first, and the second list is the part still to insert. -/
def insertionSortLoop (less : Object → Object → Bool) : List Object → List Object → List Object
  | rev, [] => rev.reverse
  | rev, x :: xs => insertionSortLoop less (insertBack less x rev) xs

/-- Go's `insertionSort_func` on a whole slice. -/
def insertionSort_func (less : Object → Object → Bool) (l : List Object) : List Object :=
  insertionSortLoop less [] l

/-- The exchange pass with gap 6: element `i` of the back part is exchanged with element `i`
of the front part when it is `less`. -/
def gapExchange (less : Object → Object → Bool) :
    List Object → List Object → List Object × List Object
  | f :: fs, b :: bs =>
    let r := gapExchange less fs bs
    if less b f then (b :: r.1, f :: r.2) else (f :: r.1, b :: r.2)
  | fs, bs => (fs, bs)

/-- A concrete sort that meets `SortSlice.Conforms`: one exchange pass with gap 6 followed
by insertion sort. For slices of at most 12 elements this is what `sort.Slice` runs in the
Go releases before 1.19 (since 1.19 it runs insertion sort alone on them). -/
def shellInsertionSort : SortSlice := fun less l =>
  let r := gapExchange less (l.take 6) (l.drop 6)
  insertionSort_func less (r.1 ++ r.2)

/-! ## `DefaultList` -/

/-- The inner loop over `q.Filters` for one object: whether the object is selected, and the
arguments `filterFunc` was called with, in order. -/
def selectObject (filterFunc : Option FilterFunc) (object : Object) :
    List (Field × Value) → Bool × List (Object × Filter)
  | [] => (true, [])
  | (field, value) :: rest =>
    match filterFunc with
    | none => selectObject filterFunc object rest
    | some ff =>
      if !ff object { Field := field, Value := value } then
        (false, [(object, { Field := field, Value := value })])
      else
        let r := selectObject filterFunc object rest
        (r.1, (object, { Field := field, Value := value }) :: r.2)

/-- The filtering loop of `DefaultList`: the slice `filtered`, and the arguments of every
call of `filterFunc`. -/
def filterObjects (filterFunc : Option FilterFunc) (filters : List (Field × Value)) :
    List Object → List Object × List (Object × Filter)
  | [] => ([], [])
  | object :: rest =>
    let r := filterObjects filterFunc filters rest
    if object.isNil then r
    else
      let s := selectObject filterFunc object filters
      (if s.1 then object :: r.1 else r.1, s.2 ++ r.2)

/-- The `less` closure `DefaultList` hands to `sort.Slice`. -/
def lessOf (compareFunc : CompareFunc) (q : Query) : Object → Object → Bool :=
  fun x y => if !q.Ascending then compareFunc x y q.SortBy else !compareFunc x y q.SortBy

/-- The sorting step of `DefaultList`: nothing happens when `compareFunc` is nil. -/
def sortObjects (sortSlice : SortSlice) (compareFunc : Option CompareFunc) (q : Query)
    (filtered : List Object) : List Object :=
  match compareFunc with
  | none => filtered
  | some cf => sortSlice (lessOf cf q) filtered

/-- The function `nilFilter`: the non-nil transforms, in order. -/
def nilFilter : List (Option TransformFunc) → List TransformFunc
  | [] => []
  | none :: rest => nilFilter rest
  | some t :: rest => t :: nilFilter rest

/-- The inner loop over `transformFuncs` for one object: `obj` is the object the next
transform receives and the last argument is the current value of `transferred`. -/
def transformLoop : List TransformFunc → Object → Transferred → Transferred
  | [], _, transferred => transferred
  | transform :: rest, obj, _ =>
    let transferred := transform obj
    match transferred.asObject with
    | some transferredObj => transformLoop rest transferredObj transferred
    | none => transformLoop rest obj transferred

/-- The transforms `DefaultList` runs: the non-nil ones, or `NoTransformFunc` alone when
there is none. -/
def effectiveTransforms (transformFuncs : List (Option TransformFunc)) : List TransformFunc :=
  if (nilFilter transformFuncs).length = 0 then [NoTransformFunc] else nilFilter transformFuncs

/-- The item `DefaultList` stores for one object of the page. -/
def transformObject (transformFuncs : List (Option TransformFunc)) (obj : Object) : Transferred :=
  transformLoop (effectiveTransforms transformFuncs) obj (Transferred.object Object.nilInterface)

/-- The allocation `make([]interface{}, end-start)` followed by the slice expression
`filtered[start:end]`: `none` is the run-time panic of a negative length or of indices out
of range. (Go bounds `end` by the capacity; `GetValidPagination` never returns an `end`
above `total`, so the length is used.) -/
def sliceRange (filtered : List Object) (startIndex endIndex : Int) : Option (List Object) :=
  if 0 ≤ startIndex ∧ startIndex ≤ endIndex ∧ endIndex ≤ filtered.length then
    some ((filtered.drop startIndex.toNat).take (endIndex - startIndex).toNat)
  else none

/-- The pagination `DefaultList` uses: `q.Pagination`, or `NoPagination` when it is nil. -/
def effectivePagination (q : Query) : Pagination :=
  match q.Pagination with
  | none => NoPagination
  | some p => p

/-- The slice `filtered` of `DefaultList` after the filtering loop and the sort. -/
def filteredSorted (sortSlice : SortSlice) (objects : List Object) (q : Query)
    (compareFunc : Option CompareFunc) (filterFunc : Option FilterFunc) : List Object :=
  sortObjects sortSlice compareFunc q (filterObjects filterFunc q.Filters objects).1

/-- The function `DefaultList`, with the query as it is left behind (the function receives a
pointer and assigns `q.Pagination` when it is nil). The result is `none` when the function
panics. -/
def DefaultListQ (sortSlice : SortSlice) (objects : List Object) (q : Query)
    (compareFunc : Option CompareFunc) (filterFunc : Option FilterFunc)
    (transformFuncs : List (Option TransformFunc)) : Query × Option ListResult :=
  let filtered := filteredSorted sortSlice objects q compareFunc filterFunc
  let total : Int := filtered.length
  let q1 : Query := { q with Pagination := some (effectivePagination q) }
  let range := GetValidPagination (effectivePagination q) total
  match sliceRange filtered range.1 range.2 with
  | none => (q1, none)
  | some page =>
    (q1, some { Items := page.map (transformObject transformFuncs), TotalItems := total })

/-- The result of `DefaultList`. -/
def DefaultList (sortSlice : SortSlice) (objects : List Object) (q : Query)
    (compareFunc : Option CompareFunc) (filterFunc : Option FilterFunc)
    (transformFuncs : List (Option TransformFunc)) : Option ListResult :=
  (DefaultListQ sortSlice objects q compareFunc filterFunc transformFuncs).2

/-! ## The default comparator -/

/-- Go's `strings.Compare`: `0`, `-1` or `+1`, by the lexicographic order of the two
strings (the order of their character lists, which is the order `a < b` of strings). -/
def stringsCompare (a b : String) : Int :=
  if a = b then 0 else if a.data < b.data then -1 else 1

/-- The function `DefaultObjectMetaCompare`. The `default` case falls through to the case of
`query.FieldCreationTimeStamp`. -/
def DefaultObjectMetaCompare (left right : ObjectMeta) (sortBy : Field) : Bool :=
  if sortBy = FieldName then
    decide (stringsCompare left.Name right.Name > 0)
  else if sortBy = "!" ++ FieldName then
    decide (stringsCompare left.Name right.Name < 0)
  else
    let leftTime := left.CreationTimestamp
    let rightTime := right.CreationTimestamp
    if leftTime.Equal rightTime then
      decide (stringsCompare left.Name right.Name > 0)
    else leftTime.After rightTime

/-- The type assertion `obj.(metav1.ObjectMetaAccessor)`: whether it succeeds. -/
def Object.isAccessor : Object → Bool
  | .nilInterface => false
  | .nilPointer _ hasMeta => hasMeta
  | .resource _ _ _ => true
  | .bare _ _ => false

/-- The call `oma.GetObjectMeta()`: `none` is the panic of the call on a nil pointer. -/
def Object.GetObjectMeta : Object → Option ObjectMeta
  | .resource _ m _ => some m
  | _ => none

/-- The closure `DefaultCompare()` returns, `none` being a panic (a nil pointer of a type
with the accessors passes both type assertions and fails in `GetObjectMeta`). -/
def DefaultCompareRun (left right : Object) (field : Field) : Option Bool :=
  if !left.isAccessor then some false
  else if !right.isAccessor then some false
  else
    match left.GetObjectMeta, right.GetObjectMeta with
    | some l, some r => some (DefaultObjectMetaCompare l r field)
    | _, _ => none

/-- The closure `DefaultCompare()` returns, as a `CompareFunc`. `DefaultList` drops nil
objects before it sorts, so the comparator never meets the panicking inputs there; on them
this function is `false`. -/
def DefaultCompare : CompareFunc := fun left right field =>
  (DefaultCompareRun left right field).getD false

/-! ## Reference predicates -/

/-- Whether one entry of `q.Filters` lets the object through: a nil `filterFunc` rejects
nothing. -/
def passes (filterFunc : Option FilterFunc) (object : Object) (entry : Field × Value) : Bool :=
  match filterFunc with
  | none => true
  | some ff => ff object { Field := entry.1, Value := entry.2 }

/-- The specification of the filtering step (spec §4.5, steps 1 and 2): the object is not
nil and every entry of the filter map lets it through. -/
def keeps (filterFunc : Option FilterFunc) (filters : List (Field × Value))
    (object : Object) : Bool :=
  !object.isNil && filters.all (passes filterFunc object)

/-- The query has a pagination that meets the invariant of spec §3, or none at all (nil, for
which `DefaultList` substitutes the sentinel). -/
def Query.PaginationValid (q : Query) : Prop := (effectivePagination q).Valid

instance (q : Query) : Decidable q.PaginationValid := by
  unfold Query.PaginationValid; exact inferInstance

/-! ## Sample data -/

/-- A sample object with metadata: a name, a namespace and a creation time. -/
def sampleObject (name ns : String) (created : Int) : Object :=
  Object.resource "Pipeline"
    { Name := name, Namespace := ns, UID := "", CreationTimestamp := { instant := created },
      Labels := [], Annotations := [], OwnerReferences := [] }
    none

/-- A sample query: no pagination, no filter, descending creation time. -/
def sampleQuery : Query :=
  { Pagination := none, SortBy := FieldCreationTimeStamp, Ascending := false, Filters := [],
    LabelSelector := "" }

/-- Seven sample objects: two of them, in the namespaces `ns1` and `ns2`, have the same name
and the same creation time, so that the default comparator does not order them. -/
def sampleObjects : List Object :=
  [sampleObject "old" "" 0, sampleObject "x" "ns1" 5, sampleObject "a" "" 9,
   sampleObject "b" "" 8, sampleObject "c" "" 7, sampleObject "d" "" 6,
   sampleObject "x" "ns2" 5]

/-- Three sample templates created at the same time, as in the end-to-end scenario of the
specification. -/
def sampleTemplates : List Object :=
  [sampleObject "template1" "" 0, sampleObject "template3" "" 0, sampleObject "template2" "" 0]

/-- A sample query with a page: limit 2, offset 1, ascending names. -/
def samplePageQuery : Query :=
  { Pagination := some (newPagination 2 1), SortBy := FieldName, Ascending := true,
    Filters := [], LabelSelector := "" }

/-! ## Filter functions: `And`, `Or` -/

/-- The filter `alwaysTrueFilter`. -/
def alwaysTrueFilter : FilterFunc := fun _ _ => true

/-- The filter `alwaysFalseFilter`. -/
def alwaysFalseFilter : FilterFunc := fun _ _ => false

/-- The method `And` of `FilterFunc`: the receiver and the argument may be nil (`none`); the
closure it returns replaces a nil operand by `alwaysTrueFilter`. -/
def FilterFunc.And (ff anotherFf : Option FilterFunc) : FilterFunc :=
  fun object filter =>
    let ff1 := match ff with
      | none => alwaysTrueFilter
      | some f => f
    let anotherFf1 := match anotherFf with
      | none => alwaysTrueFilter
      | some f => f
    ff1 object filter && anotherFf1 object filter

/-- The method `Or` of `FilterFunc`: a nil operand is replaced by `alwaysFalseFilter`. -/
def FilterFunc.Or (ff anotherFf : Option FilterFunc) : FilterFunc :=
  fun object filter =>
    let ff1 := match ff with
      | none => alwaysFalseFilter
      | some f => f
    let anotherFf1 := match anotherFf with
      | none => alwaysFalseFilter
      | some f => f
    ff1 object filter || anotherFf1 object filter

/-! ## Go string functions used by the default filter -/

/-- The part of a character list before the first `sep` and the part after it; `none` when
`sep` does not occur. -/
def splitFirst (sep : Char) : List Char → Option (List Char × List Char)
  | [] => none
  | c :: cs =>
    if c = sep then some ([], cs)
    else
      match splitFirst sep cs with
      | some (a, b) => some (c :: a, b)
      | none => none

/-- Go's `strings.SplitN(s, sep, 2)` for a separator of one character: the string itself
when `sep` does not occur, else the parts before and after its first occurrence. -/
def stringsSplitN2 (s : String) (sep : Char) : List String :=
  match splitFirst sep s.data with
  | none => [s]
  | some (a, b) => [String.mk a, String.mk b]

/-- The pieces of a character list between the occurrences of `sep`. -/
def splitChars (sep : Char) : List Char → List (List Char)
  | [] => [[]]
  | c :: cs =>
    if c = sep then [] :: splitChars sep cs
    else
      match splitChars sep cs with
      | piece :: rest => (c :: piece) :: rest
      | [] => [[c]]

/-- Go's `strings.Split(s, sep)` for a separator of one character. -/
def stringsSplit (s : String) (sep : Char) : List String :=
  (splitChars sep s.data).map String.mk

/-- Go's `strings.HasSuffix`. -/
def stringsHasSuffix (s suffix : String) : Bool :=
  suffix.data.reverse.isPrefixOf s.data.reverse

/-- Go's `strings.TrimSuffix`. -/
def stringsTrimSuffix (s suffix : String) : String :=
  if stringsHasSuffix s suffix then String.mk (s.data.take (s.data.length - suffix.data.length))
  else s

/-- Go's `strings.Contains`: `substr` occurs in `s`. -/
def stringsContains (s substr : String) : Bool :=
  s.data.tails.any (fun t => substr.data.isPrefixOf t)

/-- Go's `unicode.IsSpace`. -/
def unicodeIsSpace (c : Char) : Bool :=
  let n := c.toNat
  (9 ≤ n && n ≤ 13) || n = 32 || n = 133 || n = 160 || n = 5760 ||
    (8192 ≤ n && n ≤ 8202) || n = 8232 || n = 8233 || n = 8239 || n = 8287 || n = 12288

/-- Go's `strings.TrimSpace`: the string without its leading and trailing white space. -/
def stringsTrimSpace (s : String) : String :=
  String.mk ((s.data.dropWhile unicodeIsSpace).reverse.dropWhile unicodeIsSpace).reverse

/-! ## The default filter -/

/-- Modelled from the spec: the constant `query.FieldNames` (package `query` is absent;
spec §6 lists the parameter keys). -/
def FieldNames : Field := "names"

/-- Modelled from the spec: the constant `query.FieldUID`. -/
def FieldUID : Field := "uid"

/-- Modelled from the spec: the constant `query.FieldNamespace`. -/
def FieldNamespace : Field := "namespace"

/-- Modelled from the spec: the constant `query.FieldOwnerReference`. -/
def FieldOwnerReference : Field := "ownerReference"

/-- Modelled from the spec: the constant `query.FieldOwnerKind`. -/
def FieldOwnerKind : Field := "ownerKind"

/-- Modelled from the spec: the constant `query.FieldAnnotation`. -/
def FieldAnnotation : Field := "annotation"

/-- Modelled from the spec: the constant `query.FieldLabel`. -/
def FieldLabel : Field := "label"

/-- The function `labelMatch`. The label map is the list of its entries; the loop over the
map returns true at the first entry that matches. -/
def labelMatch (labels : List (String × String)) (filter : String) : Bool :=
  let fields := stringsSplitN2 filter '='
  let kvo : String × String × Bool :=
    match fields with
    | [f0, f1] =>
      if stringsHasSuffix f0 "!" then (stringsTrimSuffix f0 "!", f1, true)
      else (f0, f1, false)
    | f0 :: _ => (f0, "*", false)
    | [] => ("", "*", false)
  let key := kvo.1
  let value := kvo.2.1
  let opposite := kvo.2.2
  labels.any (fun kv =>
    if opposite then decide (kv.1 = key) && decide (kv.2 ≠ value)
    else decide (kv.1 = key) && (decide (value = "*") || decide (kv.2 = value)))

/-- The loop of `labelsMatch` over the clauses, `m` being the variable `match`. -/
def labelsMatchLoop (labels : List (String × String)) : List String → Bool → Bool
  | [], m => m
  | filter :: rest, m =>
    let m1 := m && labelMatch labels (stringsTrimSpace filter)
    if !m1 then m1 else labelsMatchLoop labels rest m1

/-- The function `labelsMatch`. -/
def labelsMatch (labels : List (String × String)) (filterStr : String) : Bool :=
  labelsMatchLoop labels (stringsSplit filterStr ',') true

/-- The function `DefaultObjectMetaFilter`. -/
def DefaultObjectMetaFilter (item : ObjectMeta) (filter : Filter) : Bool :=
  if filter.Field = FieldNames then
    (stringsSplit filter.Value ',').any (fun name => decide (item.Name = name))
  else if filter.Field = FieldName then
    stringsContains item.Name filter.Value
  else if filter.Field = FieldUID then
    decide (item.UID = filter.Value)
  else if filter.Field = FieldNamespace then
    decide (item.Namespace = filter.Value)
  else if filter.Field = FieldOwnerReference then
    item.OwnerReferences.any (fun ownerReference => decide (ownerReference.UID = filter.Value))
  else if filter.Field = FieldOwnerKind then
    item.OwnerReferences.any (fun ownerReference => decide (ownerReference.Kind = filter.Value))
  else if filter.Field = FieldAnnotation then
    labelsMatch item.Annotations filter.Value
  else if filter.Field = FieldLabel then
    labelsMatch item.Labels filter.Value
  else true

/-- The closure `DefaultFilter()` returns: false unless the object has the metadata accessors
and is not a nil pointer. -/
def DefaultFilter : FilterFunc := fun obj filter =>
  if !obj.isAccessor || obj.isNil then false
  else
    match obj.GetObjectMeta with
    | some m => DefaultObjectMetaFilter m filter
    | none => false

/-! ## Reference definitions for the transform chain -/

/-- The object the next transform receives after the chain `ts` has run on `obj`: the most
recent output that is a `runtime.Object`, or `obj` itself when there is none. -/
def threadedObject : List TransformFunc → Object → Object
  | [], obj => obj
  | t :: ts, obj =>
    match (t obj).asObject with
    | some o => threadedObject ts o
    | none => threadedObject ts obj

/-- The filter fields `DefaultObjectMetaFilter` has a case for. -/
def recognizedFilterFields : List Field :=
  [FieldNames, FieldName, FieldUID, FieldNamespace, FieldOwnerReference, FieldOwnerKind,
   FieldAnnotation, FieldLabel]

/-- A sample query for a page beyond the range: `page=10` with the default limit, that is
offset 90. -/
def sampleBeyondQuery : Query :=
  { Pagination := some (newPagination DefaultLimit 90), SortBy := FieldName, Ascending := true,
    Filters := [], LabelSelector := "" }

/-! ## The PipelineRun list handler -/

/-- The method `IsZero` of a non-nil `metav1.Time`: the instant is the zero time, from which
instants are counted. -/
def Time.IsZero (t : Time) : Bool := decide (t.instant = 0)

/-- The kind of the objects of dynamic type `*v1alpha3.PipelineRun`. -/
def PipelineRunKind : String := "PipelineRun"

/-- The type assertion `obj.(*v1alpha3.PipelineRun)`: whether it succeeds. It does on a nil
pointer of that type too. -/
def Object.isPipelineRun : Object → Bool
  | .nilInterface => false
  | .nilPointer kind _ => decide (kind = PipelineRunKind)
  | .resource kind _ _ => decide (kind = PipelineRunKind)
  | .bare kind _ => decide (kind = PipelineRunKind)

/-- The time the comparator uses for a PipelineRun: `Status.StartTime`, replaced by the
creation timestamp when it is nil or zero. -/
def effectiveTime (m : ObjectMeta) (startTime : Option Time) : Time :=
  match startTime with
  | none => m.CreationTimestamp
  | some t => if t.IsZero then m.CreationTimestamp else t

/-- The closure `listHandler.Comparator()` returns, `none` being the panic of reading the
fields of a nil pointer. -/
def PipelineRunComparatorRun (left right : Object) (_f : Field) : Option Bool :=
  if !left.isPipelineRun then some false
  else if !right.isPipelineRun then some false
  else
    match left, right with
    | .resource _ lm ls, .resource _ rm rs =>
      let leftTime := effectiveTime lm ls
      let rightTime := effectiveTime rm rs
      if !leftTime.Equal rightTime then some (leftTime.After rightTime)
      else some (decide (stringsCompare lm.Name rm.Name < 0))
    | _, _ => none

/-- The closure `listHandler.Comparator()` returns, as a `CompareFunc`; on the panicking
inputs (nil pointers, which `DefaultList` drops before sorting) it is `false`. -/
def PipelineRunComparator : CompareFunc := fun left right f =>
  (PipelineRunComparatorRun left right f).getD false

/-! ## Package `net` -/

/-- The function `IsValidPort`. -/
def IsValidPort (port : Int) : Bool := decide (port > 0) && decide (port < 65535)

/-! ## The webhook controller: `addToArrayInAnnotations` -/

/-- The lookup `array[key]` of a Go map given by the list of its entries. -/
def mapGet (array : List (String × String)) (key : String) : Option String :=
  match array with
  | [] => none
  | (k, v) :: rest => if k = key then some v else mapGet rest key

/-- The assignment `array[key] = value` to a Go map given by the list of its entries. -/
def mapSet (array : List (String × String)) (key value : String) : List (String × String) :=
  match array with
  | [] => [(key, value)]
  | (k, v) :: rest => if k = key then (k, value) :: rest else (k, v) :: mapSet rest key value

/-- The function `addToArrayInAnnotations`; `none` is the nil map. -/
def addToArrayInAnnotations (array : Option (List (String × String))) (key value : String) :
    List (String × String) :=
  match array with
  | none => [(key, value)]
  | some entries =>
    match mapGet entries key with
    | some val =>
      if val = value || stringsContains val ("," ++ value) || stringsContains val (value ++ ",")
      then entries
      else mapSet entries key (val ++ "," ++ value)
    | none => mapSet entries key value

/-! ## Package `query`: `ParseQueryParameter` -/

/-- The value of a run of decimal digits; `none` when the run is empty or holds another
character. -/
def parseDigits (ds : List Char) : Option Nat :=
  if ds = [] then none
  else
    ds.foldl
      (fun acc c =>
        match acc with
        | none => none
        | some n => if 48 ≤ c.toNat ∧ c.toNat ≤ 57 then some (n * 10 + (c.toNat - 48)) else none)
      (some 0)

/-- Go's `strconv.Atoi` on a 64-bit platform: an optional sign and decimal digits, `none`
being the error (no digit, another character, or a value out of range). -/
def strconvAtoi (s : String) : Option Int :=
  let signed : Bool × List Char :=
    match s.data with
    | '-' :: ds => (true, ds)
    | '+' :: ds => (false, ds)
    | ds => (false, ds)
  match parseDigits signed.2 with
  | none => none
  | some n =>
    let v : Int := if signed.1 then -(n : Int) else (n : Int)
    if -9223372036854775808 ≤ v ∧ v ≤ 9223372036854775807 then some v else none

/-- Go's `strconv.ParseBool`, `none` being the error. -/
def strconvParseBool (s : String) : Option Bool :=
  if s ∈ ["1", "t", "T", "TRUE", "true", "True"] then some true
  else if s ∈ ["0", "f", "F", "FALSE", "false", "False"] then some false
  else none

/-- Modelled from the spec: the parameter key `page` (spec §6, and the query strings of
`TestParseQueryParameter`). -/
def ParameterPage : String := "page"

/-- Modelled from the spec: the parameter key `limit`. -/
def ParameterLimit : String := "limit"

/-- Modelled from the spec: the legacy parameter key `start`, a raw offset. -/
def ParameterStart : String := "start"

/-- Modelled from the spec: the parameter key `sortBy`. -/
def ParameterOrderBy : String := "sortBy"

/-- Modelled from the spec: the parameter key `ascending`. -/
def ParameterAscending : String := "ascending"

/-- The value of a request parameter, the empty string when it is absent. The request is the
mapping of parameter names to values (spec §6), given by the list of its entries. -/
def queryParameter (request : List (String × String)) (name : String) : String :=
  (mapGet request name).getD ""

/-- Modelled from the spec: `ParseQueryParameter` of the absent `pkg/apiserver/query/types.go`,
following spec §4.1, except at the two places where the expectations of
`TestParseQueryParameter` (in the sources) differ from the words of the specification and
are followed instead:
* the keys `page`, `limit`, `sortBy` and `ascending` never enter `Filters`, parsed or not
  (case "invalid page and limit parameter" expects only the two other keys);
* when neither `page` nor `start` parses but `limit` does, the pagination is
  `newPagination(limit, 0)` (case "have invalid parameter 'start'"), and the sentinel is
  used when `limit` does not parse either. -/
def ParseQueryParameter (request : List (String × String)) : Query :=
  let limitParsed := strconvAtoi (queryParameter request ParameterLimit)
  let pageParsed := strconvAtoi (queryParameter request ParameterPage)
  let startParsed := strconvAtoi (queryParameter request ParameterStart)
  let limit : Int :=
    match limitParsed with
    | some l => if l > 0 then l else DefaultLimit
    | none => DefaultLimit
  let pagination : Pagination :=
    match pageParsed with
    | some page => newPagination limit ((max page 1 - 1) * limit)
    | none =>
      match startParsed with
      | some start => newPagination limit start
      | none =>
        match limitParsed with
        | some _ => newPagination limit 0
        | none => NoPagination
  { Pagination := some pagination
    SortBy :=
      match mapGet request ParameterOrderBy with
      | some v => v
      | none => FieldCreationTimeStamp
    Ascending :=
      match strconvParseBool (queryParameter request ParameterAscending) with
      | some b => b
      | none => false
    Filters := request.filter
      (fun kv => !decide (kv.1 ∈ [ParameterPage, ParameterLimit, ParameterOrderBy,
        ParameterAscending]))
    LabelSelector := "" }

/-- The request of the case "test normal case" of `TestParseQueryParameter`. -/
def sampleRequestNormal : List (String × String) :=
  [("label", "app.kubernetes.io/name=book"), ("name", "foo"), ("status", "Running"),
   ("page", "1"), ("limit", "10"), ("ascending", "true")]

/-- The request of the case "invalid page and limit parameter" of
`TestParseQueryParameter`. -/
def sampleRequestInvalid : List (String × String) :=
  [("xxxx", "xxxx"), ("dsfsw", "xxxx"), ("page", "abc"), ("limit", "add"),
   ("ascending", "ssss")]

/-- The request of the case "have invalid parameter 'start'" of `TestParseQueryParameter`. -/
def sampleRequestInvalidStart : List (String × String) :=
  [("start", "a"), ("limit", "10")]

/-! ## Lemmas: the concrete sort conforms -/

theorem insertBack_perm (less : Object → Object → Bool) (x : Object) (rev : List Object) :
    List.Perm (insertBack less x rev) (x :: rev) := by
  induction rev with
  | nil => simp [insertBack]
  | cons y ys ih =>
    simp only [insertBack]
    split
    · exact (List.Perm.cons y ih).trans (List.Perm.swap x y ys)
    · exact List.Perm.refl _

theorem mem_insertBack (less : Object → Object → Bool) (x z : Object) (rev : List Object) :
    z ∈ insertBack less x rev ↔ z = x ∨ z ∈ rev := by
  rw [(insertBack_perm less x rev).mem_iff]; simp

theorem insertionSortLoop_perm (less : Object → Object → Bool) (l rev : List Object) :
    List.Perm (insertionSortLoop less rev l) (rev ++ l) := by
  induction l generalizing rev with
  | nil => simp [insertionSortLoop]
  | cons x xs ih =>
    simp only [insertionSortLoop]
    refine (ih _).trans ?_
    refine ((insertBack_perm less x rev).append_right xs).trans ?_
    simpa using (@List.perm_middle Object x rev xs).symm

theorem insertBack_sorted (less : Object → Object → Bool) (x : Object) (rev : List Object)
    (hirr : less x x = false)
    (htrans : ∀ y ∈ rev, less x y = true → less y x = true → less x x = true)
    (hinc : ∀ y ∈ rev, ∀ z ∈ rev, less x y = false → less y z = false → less x z = false)
    (hs : List.Pairwise (fun a b => less a b = false) rev) :
    List.Pairwise (fun a b => less a b = false) (insertBack less x rev) := by
  induction rev with
  | nil => simp [insertBack]
  | cons y ys ih =>
    rw [List.pairwise_cons] at hs
    simp only [insertBack]
    split
    · rename_i hxy
      rw [List.pairwise_cons]
      refine ⟨?_, ?_⟩
      · intro z hz
        rcases (mem_insertBack less x z ys).1 hz with rfl | hz
        · cases hyx : less y z with
          | false => rfl
          | true =>
            have := htrans y (List.mem_cons_self _ _) hxy hyx
            rw [hirr] at this; exact absurd this (by simp)
        · exact hs.1 z hz
      · exact ih (fun w hw => htrans w (List.mem_cons_of_mem _ hw))
          (fun w hw z hz => hinc w (List.mem_cons_of_mem _ hw) z (List.mem_cons_of_mem _ hz))
          hs.2
    · rename_i hxy
      have hxy : less x y = false := by simpa using hxy
      rw [List.pairwise_cons]
      refine ⟨?_, List.pairwise_cons.2 hs⟩
      intro z hz
      rcases List.mem_cons.1 hz with rfl | hz
      · exact hxy
      · exact hinc y (List.mem_cons_self _ _) z (List.mem_cons_of_mem _ hz) hxy (hs.1 z hz)

theorem insertionSortLoop_sorted (less : Object → Object → Bool) (l rev : List Object)
    (hw : StrictWeakOn less (rev ++ l))
    (hs : List.Pairwise (fun a b => less a b = false) rev) :
    List.Pairwise (fun x y => less y x = false) (insertionSortLoop less rev l) := by
  induction l generalizing rev with
  | nil => simpa [insertionSortLoop, List.pairwise_reverse] using hs
  | cons x xs ih =>
    simp only [insertionSortLoop]
    have hx : x ∈ rev ++ x :: xs := by simp
    have hsub : ∀ y ∈ rev, y ∈ rev ++ x :: xs := fun y hy => List.mem_append_left _ hy
    apply ih
    · have hmem : ∀ z, z ∈ insertBack less x rev ++ xs → z ∈ rev ++ x :: xs := by
        intro z hz
        rcases List.mem_append.1 hz with hz | hz
        · rcases (mem_insertBack less x z rev).1 hz with rfl | hz
          · exact hx
          · exact hsub z hz
        · exact List.mem_append_right _ (List.mem_cons_of_mem _ hz)
      exact ⟨fun a ha => hw.irrefl a (hmem a ha),
        fun a ha b hb c hc => hw.trans a (hmem a ha) b (hmem b hb) c (hmem c hc),
        fun a ha b hb c hc => hw.incomp a (hmem a ha) b (hmem b hb) c (hmem c hc)⟩
    · exact insertBack_sorted less x rev (hw.irrefl x hx)
        (fun y hy => hw.trans x hx y (hsub y hy) x hx)
        (fun y hy z hz => hw.incomp x hx y (hsub y hy) z (hsub z hz)) hs

theorem insertBack_congr (less₁ less₂ : Object → Object → Bool) (x : Object)
    (rev : List Object) (h : ∀ y ∈ rev, less₁ x y = less₂ x y) :
    insertBack less₁ x rev = insertBack less₂ x rev := by
  induction rev with
  | nil => rfl
  | cons y ys ih =>
    simp only [insertBack, h y (List.mem_cons_self _ _),
      ih (fun z hz => h z (List.mem_cons_of_mem _ hz))]

theorem insertionSortLoop_congr (less₁ less₂ : Object → Object → Bool) (l rev : List Object)
    (hnd : (rev ++ l).Nodup)
    (h : ∀ x ∈ rev ++ l, ∀ y ∈ rev ++ l, x ≠ y → less₁ x y = less₂ x y) :
    insertionSortLoop less₁ rev l = insertionSortLoop less₂ rev l := by
  induction l generalizing rev with
  | nil => rfl
  | cons x xs ih =>
    simp only [insertionSortLoop]
    have hx : x ∈ rev ++ x :: xs := by simp
    have hnotin : x ∉ rev := by
      intro hxr
      have := List.nodup_append.1 hnd
      exact this.2.2 hxr (List.mem_cons_self _ _)
    have e : insertBack less₁ x rev = insertBack less₂ x rev :=
      insertBack_congr less₁ less₂ x rev (fun y hy =>
        h x hx y (List.mem_append_left _ hy) (fun hxy => hnotin (hxy ▸ hy)))
    rw [e]
    have hp : List.Perm (insertBack less₂ x rev ++ xs) (rev ++ x :: xs) :=
      ((insertBack_perm less₂ x rev).append_right xs).trans
        (by simpa using (@List.perm_middle Object x rev xs).symm)
    apply ih
    · exact hp.nodup_iff.2 hnd
    · intro a ha b hb
      exact h a (hp.mem_iff.1 ha) b (hp.mem_iff.1 hb)

theorem gapExchange_perm (less : Object → Object → Bool) (fs bs : List Object) :
    List.Perm ((gapExchange less fs bs).1 ++ (gapExchange less fs bs).2) (fs ++ bs) := by
  induction fs generalizing bs with
  | nil => simp [gapExchange]
  | cons f fs ih =>
    cases bs with
    | nil => simp [gapExchange]
    | cons b bs =>
      simp only [gapExchange]
      have h1 := ih bs
      have hmid : ∀ (u v : Object) (p q : List Object),
          List.Perm (p ++ q) (fs ++ bs) → List.Perm ((u :: p) ++ (v :: q)) (u :: v :: (fs ++ bs)) :=
        fun u v p q hpq => List.Perm.cons u (List.perm_middle.trans (List.Perm.cons v hpq))
      have htail : List.Perm (f :: b :: (fs ++ bs)) ((f :: fs) ++ (b :: bs)) :=
        List.Perm.cons f List.perm_middle.symm
      split
      · exact ((hmid b f _ _ h1).trans (List.Perm.swap f b _)).trans htail
      · exact (hmid f b _ _ h1).trans htail

theorem gapExchange_congr (less₁ less₂ : Object → Object → Bool) (fs bs : List Object)
    (h : ∀ x ∈ fs ++ bs, ∀ y ∈ fs ++ bs, x ≠ y → less₁ x y = less₂ x y)
    (hnd : (fs ++ bs).Nodup) :
    gapExchange less₁ fs bs = gapExchange less₂ fs bs := by
  induction fs generalizing bs with
  | nil => simp [gapExchange]
  | cons f fs ih =>
    cases bs with
    | nil => simp [gapExchange]
    | cons b bs =>
      have hbf : b ≠ f := by
        intro hbf
        have := List.nodup_append.1 hnd
        exact this.2.2 (List.mem_cons_self f fs) (hbf ▸ List.mem_cons_self b bs)
      have hb : b ∈ (f :: fs) ++ (b :: bs) := by simp
      have hf : f ∈ (f :: fs) ++ (b :: bs) := by simp
      have hsub : ∀ z, z ∈ fs ++ bs → z ∈ (f :: fs) ++ (b :: bs) := by
        intro z hz
        rcases List.mem_append.1 hz with hz | hz
        · exact List.mem_append_left _ (List.mem_cons_of_mem _ hz)
        · exact List.mem_append_right _ (List.mem_cons_of_mem _ hz)
      have hnd2 : (fs ++ bs).Nodup := by
        have hsl : List.Sublist (fs ++ bs) ((f :: fs) ++ (b :: bs)) :=
          List.Sublist.append (List.sublist_cons_self f fs) (List.sublist_cons_self b bs)
        exact hnd.sublist hsl
      simp only [gapExchange, h b hb f hf hbf,
        ih bs (fun x hx y hy => h x (hsub x hx) y (hsub y hy)) hnd2]

/-- The concrete sort meets everything that is assumed of `sort.Slice`. -/
theorem shellInsertionSort_conforms : SortSlice.Conforms shellInsertionSort := by
  have hperm : ∀ less l, List.Perm
      ((gapExchange less (l.take 6) (l.drop 6)).1 ++ (gapExchange less (l.take 6) (l.drop 6)).2)
      l := fun less l => by
    simpa using gapExchange_perm less (l.take 6) (l.drop 6)
  refine ⟨?_, ?_, ?_⟩
  · intro less l
    have h0 := insertionSortLoop_perm less
      ((gapExchange less (l.take 6) (l.drop 6)).1 ++ (gapExchange less (l.take 6) (l.drop 6)).2) []
    rw [List.nil_append] at h0
    exact h0.trans (hperm less l)
  · intro less l hw
    apply insertionSortLoop_sorted less _ []
    · have hp := hperm less l
      exact ⟨fun a ha => hw.irrefl a (hp.mem_iff.1 (by simpa using ha)),
        fun a ha b hb c hc => hw.trans a (hp.mem_iff.1 (by simpa using ha))
          b (hp.mem_iff.1 (by simpa using hb)) c (hp.mem_iff.1 (by simpa using hc)),
        fun a ha b hb c hc => hw.incomp a (hp.mem_iff.1 (by simpa using ha))
          b (hp.mem_iff.1 (by simpa using hb)) c (hp.mem_iff.1 (by simpa using hc))⟩
    · exact List.Pairwise.nil
  · intro less₁ less₂ l hnd h
    have e : gapExchange less₁ (l.take 6) (l.drop 6) = gapExchange less₂ (l.take 6) (l.drop 6) :=
      gapExchange_congr less₁ less₂ _ _ (by simpa using h) (by simpa using hnd)
    show insertionSort_func less₁ _ = insertionSort_func less₂ _
    rw [e]
    have hp := hperm less₂ l
    apply insertionSortLoop_congr less₁ less₂ _ []
    · simpa using hp.nodup_iff.2 hnd
    · intro a ha b hb
      exact h a (hp.mem_iff.1 (by simpa using ha)) b (hp.mem_iff.1 (by simpa using hb))

/-! ## Pagination -/

theorem GetValidPagination_snd_le (p : Pagination) (total : Int) (h : 0 ≤ total) :
    (GetValidPagination p total).2 ≤ total := by
  unfold GetValidPagination
  split
  · exact le_refl _
  · split
    · exact h
    · simp only []
      split
      · exact le_refl _
      · omega

theorem GetValidPagination_range (p : Pagination) (total : Int) (hp : p.Valid)
    (h : 0 ≤ total) :
    0 ≤ (GetValidPagination p total).1 ∧
      (GetValidPagination p total).1 ≤ (GetValidPagination p total).2 ∧
      (GetValidPagination p total).2 ≤ total := by
  refine ⟨?_, ?_, GetValidPagination_snd_le p total h⟩
  · rcases hp with rfl | ⟨_, ho⟩
    · simp [GetValidPagination]
    · unfold GetValidPagination
      split
      · exact le_refl _
      · split
        · exact le_refl _
        · simp only []
          split <;> exact ho
  · rcases hp with rfl | ⟨hl, _⟩
    · simpa [GetValidPagination] using h
    · unfold GetValidPagination
      split
      · exact h
      · split
        · exact le_refl _
        · simp only []
          split <;> simp only [] <;> omega

theorem GetValidPagination_sentinel (total : Int) :
    GetValidPagination NoPagination total = (0, total) := by
  simp [GetValidPagination]

theorem newPagination_valid (limit offset : Int) : (newPagination limit offset).Valid := by
  right
  unfold newPagination DefaultLimit
  constructor
  · simp only []
    split <;> omega
  · simp only []
    split <;> omega

/-- C1. `GetValidPagination(total)` is the three-branch reference of the specification: the
sentinel gives `(0, total)`; a pagination with `Limit > 0` and `Offset >= 0` gives `(0, 0)`
when `Offset > total` and `(Offset, min(Offset + Limit, total))` otherwise; in particular
`Offset = total` gives `(Offset, Offset)`. It holds for every `total`, negative ones too. -/
theorem GetValidPagination_three_branch (total : Int) :
    GetValidPagination NoPagination total = (0, total) ∧
    (∀ p : Pagination, 0 < p.Limit → 0 ≤ p.Offset →
      GetValidPagination p total =
        if p.Offset > total then (0, 0) else (p.Offset, min (p.Offset + p.Limit) total)) ∧
    (∀ p : Pagination, 0 < p.Limit → 0 ≤ p.Offset → p.Offset = total →
      GetValidPagination p total = (p.Offset, p.Offset)) := by
  refine ⟨GetValidPagination_sentinel total, ?_, ?_⟩
  · intro p hl _
    have hne : p.Limit ≠ NoPagination.Limit := by
      simp only [NoPagination]; omega
    unfold GetValidPagination
    rw [if_neg hne]
    split
    · rfl
    · simp only []
      split
      · rw [min_eq_right (by omega)]
      · rw [min_eq_left (by omega)]
  · intro p hl _ ht
    have hne : p.Limit ≠ NoPagination.Limit := by
      simp only [NoPagination]; omega
    unfold GetValidPagination
    rw [if_neg hne, if_neg (by omega)]
    simp only []
    rw [if_pos (by omega), ht]

/-- C2. `newPagination(limit, offset)` is `{Limit: limit if limit > 0 else DefaultLimit,
Offset: max(offset, 0)}`; so every pagination it builds has `Offset >= 0` and `Limit > 0`,
and a pair with `limit > 0` and `offset >= 0` is returned unchanged. -/
theorem newPagination_normalizes (limit offset : Int) :
    newPagination limit offset =
      { Limit := if limit > 0 then limit else DefaultLimit, Offset := max offset 0 } ∧
    0 ≤ (newPagination limit offset).Offset ∧
    0 < (newPagination limit offset).Limit ∧
    (0 < limit → 0 ≤ offset → newPagination limit offset = { Limit := limit, Offset := offset }) := by
  have hv := newPagination_valid limit offset
  refine ⟨?_, ?_, ?_, ?_⟩
  · unfold newPagination
    congr 1
    · by_cases h : limit ≤ 0
      · rw [if_pos h, if_neg (by omega)]
      · rw [if_neg h, if_pos (by omega)]
    · by_cases h : offset < 0
      · rw [if_pos h, max_eq_right (by omega)]
      · rw [if_neg h, max_eq_left (by omega)]
  · unfold newPagination
    simp only []
    split <;> omega
  · unfold newPagination DefaultLimit
    simp only []
    split <;> omega
  · intro hl ho
    unfold newPagination
    rw [if_neg (by omega), if_neg (by omega)]

/-- C3. For a pagination that is the `NoPagination` sentinel or was built by `newPagination`,
and every `total >= 0`, the pair `(start, end)` of `GetValidPagination(total)` satisfies
`0 <= start <= end <= total`; hence the allocation of `end - start` items and the slice
`filtered[start:end]` of a slice of `total` elements do not panic. -/
theorem GetValidPagination_in_range (p : Pagination) (total : Int)
    (hp : p = NoPagination ∨ ∃ limit offset, p = newPagination limit offset)
    (ht : 0 ≤ total) :
    0 ≤ (GetValidPagination p total).1 ∧
    (GetValidPagination p total).1 ≤ (GetValidPagination p total).2 ∧
    (GetValidPagination p total).2 ≤ total ∧
    ∀ filtered : List Object, (filtered.length : Int) = total →
      (sliceRange filtered (GetValidPagination p total).1 (GetValidPagination p total).2).isSome
        = true := by
  have hv : p.Valid := by
    rcases hp with rfl | ⟨l, o, rfl⟩
    · exact Or.inl rfl
    · exact newPagination_valid l o
  have h := GetValidPagination_range p total hv ht
  refine ⟨h.1, h.2.1, h.2.2, ?_⟩
  intro filtered hlen
  unfold sliceRange
  rw [if_pos ⟨h.1, h.2.1, by rw [hlen]; exact h.2.2⟩]
  rfl

/-- C3 at a concrete input: `newPagination(10, 10)` on a total of 10. -/
theorem GetValidPagination_in_range_witness :
    0 ≤ (GetValidPagination (newPagination 10 10) 10).1 ∧
    (GetValidPagination (newPagination 10 10) 10).1 ≤ (GetValidPagination (newPagination 10 10) 10).2 ∧
    (GetValidPagination (newPagination 10 10) 10).2 ≤ 10 ∧
    ∀ filtered : List Object, (filtered.length : Int) = 10 →
      (sliceRange filtered (GetValidPagination (newPagination 10 10) 10).1
        (GetValidPagination (newPagination 10 10) 10).2).isSome = true :=
  GetValidPagination_in_range (newPagination 10 10) 10 (Or.inr ⟨10, 10, rfl⟩) (by decide)

/-! ## The filtering step -/

theorem selectObject_fst (filterFunc : Option FilterFunc) (object : Object)
    (filters : List (Field × Value)) :
    (selectObject filterFunc object filters).1 = filters.all (passes filterFunc object) := by
  induction filters with
  | nil => rfl
  | cons e rest ih =>
    obtain ⟨field, value⟩ := e
    cases filterFunc with
    | none => simpa [selectObject, passes] using ih
    | some ff =>
      simp only [selectObject, List.all_cons, passes]
      cases h : ff object { Field := field, Value := value }
      · simp
      · simpa [passes] using ih

theorem selectObject_calls (filterFunc : Option FilterFunc) (object : Object)
    (filters : List (Field × Value)) :
    ∀ c ∈ (selectObject filterFunc object filters).2, c.1 = object := by
  induction filters with
  | nil => intro c hc; simp [selectObject] at hc
  | cons e rest ih =>
    obtain ⟨field, value⟩ := e
    cases filterFunc with
    | none => simpa [selectObject] using ih
    | some ff =>
      intro c hc
      simp only [selectObject] at hc
      split at hc
      · simp at hc; rw [hc]
      · rcases List.mem_cons.1 hc with rfl | hc
        · rfl
        · exact ih c hc

theorem filterObjects_fst (filterFunc : Option FilterFunc) (filters : List (Field × Value))
    (objects : List Object) :
    (filterObjects filterFunc filters objects).1 = objects.filter (keeps filterFunc filters) := by
  induction objects with
  | nil => rfl
  | cons o rest ih =>
    simp only [filterObjects, List.filter_cons]
    by_cases hn : o.isNil = true
    · rw [if_pos hn, if_neg (by simp [keeps, hn])]
      exact ih
    · rw [if_neg hn, selectObject_fst, ih]
      have hk : keeps filterFunc filters o = filters.all (passes filterFunc o) := by
        simp [keeps, hn]
      rw [hk]

theorem filterObjects_calls (filterFunc : Option FilterFunc) (filters : List (Field × Value))
    (objects : List Object) :
    ∀ c ∈ (filterObjects filterFunc filters objects).2, c.1.isNil = false ∧ c.1 ∈ objects := by
  induction objects with
  | nil => intro c hc; simp [filterObjects] at hc
  | cons o rest ih =>
    intro c hc
    simp only [filterObjects] at hc
    by_cases hn : o.isNil = true
    · rw [if_pos hn] at hc
      exact ⟨(ih c hc).1, List.mem_cons_of_mem _ (ih c hc).2⟩
    · rw [if_neg hn] at hc
      rcases List.mem_append.1 hc with hc | hc
      · have := selectObject_calls filterFunc o filters c hc
        rw [this]; exact ⟨by simpa using hn, List.mem_cons_self _ _⟩
      · exact ⟨(ih c hc).1, List.mem_cons_of_mem _ (ih c hc).2⟩

/-! ## The shape of the result of `DefaultList` -/

theorem filteredSorted_perm (sortSlice : SortSlice) (hS : sortSlice.Conforms)
    (objects : List Object) (q : Query) (compareFunc : Option CompareFunc)
    (filterFunc : Option FilterFunc) :
    List.Perm (filteredSorted sortSlice objects q compareFunc filterFunc)
      (objects.filter (keeps filterFunc q.Filters)) := by
  unfold filteredSorted sortObjects
  rw [filterObjects_fst]
  cases compareFunc with
  | none => exact List.Perm.refl _
  | some cf => exact hS.perm _ _

theorem DefaultList_eq (sortSlice : SortSlice) (objects : List Object) (q : Query)
    (compareFunc : Option CompareFunc) (filterFunc : Option FilterFunc)
    (transformFuncs : List (Option TransformFunc)) (hq : q.PaginationValid) :
    DefaultList sortSlice objects q compareFunc filterFunc transformFuncs =
      some
        { Items :=
            (((filteredSorted sortSlice objects q compareFunc filterFunc).drop
                (GetValidPagination (effectivePagination q)
                  (filteredSorted sortSlice objects q compareFunc filterFunc).length).1.toNat).take
              ((GetValidPagination (effectivePagination q)
                  (filteredSorted sortSlice objects q compareFunc filterFunc).length).2 -
                (GetValidPagination (effectivePagination q)
                  (filteredSorted sortSlice objects q compareFunc filterFunc).length).1).toNat).map
              (transformObject transformFuncs)
          TotalItems := (filteredSorted sortSlice objects q compareFunc filterFunc).length } := by
  have h := GetValidPagination_range (effectivePagination q)
    (filteredSorted sortSlice objects q compareFunc filterFunc).length hq (Int.natCast_nonneg _)
  unfold DefaultList DefaultListQ
  simp only [sliceRange]
  rw [if_pos ⟨h.1, h.2.1, h.2.2⟩]

/-- C4. The `TotalItems` of the result of `DefaultList` is the number of input objects that
survive filtering (not nil, and passing every filter). The count is a function of the
objects, the filter function and `q.Filters` alone: the pagination, `SortBy`, `Ascending`,
the comparator and the transforms do not enter it. The pagination is one the specification
allows (nil, the sentinel, or `Limit > 0` and `Offset >= 0`). -/
theorem DefaultList_TotalItems (sortSlice : SortSlice) (hS : sortSlice.Conforms)
    (objects : List Object) (q : Query) (compareFunc : Option CompareFunc)
    (filterFunc : Option FilterFunc) (transformFuncs : List (Option TransformFunc))
    (hq : q.PaginationValid) :
    ∃ r, DefaultList sortSlice objects q compareFunc filterFunc transformFuncs = some r ∧
      r.TotalItems = ((objects.filter (keeps filterFunc q.Filters)).length : Int) := by
  refine ⟨_, DefaultList_eq sortSlice objects q compareFunc filterFunc transformFuncs hq, ?_⟩
  simp only []
  rw [(filteredSorted_perm sortSlice hS objects q compareFunc filterFunc).length_eq]

theorem Object.isNil_iff (o : Object) :
    o.isNil = true ↔
      (o = Object.nilInterface ∨ ∃ kind hasMeta, o = Object.nilPointer kind hasMeta) := by
  cases o <;> simp [Object.isNil]

theorem Object.isNil_false_iff (o : Object) :
    o.isNil = false ↔
      (o ≠ Object.nilInterface ∧ ∀ kind hasMeta, o ≠ Object.nilPointer kind hasMeta) := by
  cases o <;> simp [Object.isNil]

theorem selectObject_calls_entry (filterFunc : Option FilterFunc) (object : Object)
    (filters : List (Field × Value)) :
    ∀ c ∈ (selectObject filterFunc object filters).2, (c.2.Field, c.2.Value) ∈ filters := by
  induction filters with
  | nil => intro c hc; simp [selectObject] at hc
  | cons e rest ih =>
    obtain ⟨field, value⟩ := e
    cases filterFunc with
    | none =>
      intro c hc
      simp only [selectObject] at hc
      exact List.mem_cons_of_mem _ (ih c hc)
    | some ff =>
      intro c hc
      simp only [selectObject] at hc
      split at hc
      · simp at hc; rw [hc]; exact List.mem_cons_self _ _
      · rcases List.mem_cons.1 hc with rfl | hc
        · exact List.mem_cons_self _ _
        · exact List.mem_cons_of_mem _ (ih c hc)

theorem filterObjects_calls_entry (filterFunc : Option FilterFunc)
    (filters : List (Field × Value)) (objects : List Object) :
    ∀ c ∈ (filterObjects filterFunc filters objects).2, (c.2.Field, c.2.Value) ∈ filters := by
  induction objects with
  | nil => intro c hc; simp [filterObjects] at hc
  | cons o rest ih =>
    intro c hc
    simp only [filterObjects] at hc
    by_cases hn : o.isNil = true
    · rw [if_pos hn] at hc
      exact ih c hc
    · rw [if_neg hn] at hc
      rcases List.mem_append.1 hc with hc | hc
      · exact selectObject_calls_entry filterFunc o filters c hc
      · exact ih c hc

/-- C5. The filtering loop of `DefaultList` keeps exactly the objects that are not nil and
pass every entry of `q.Filters`, in input order. The nil objects are the nil interface value
and the nil pointers, and only they. The filter function is called on objects of the input
that are neither, with entries of `q.Filters`, and never on a nil object. With no
comparator, no pagination and no transform the kept objects are the items of the result. -/
theorem DefaultList_keeps (sortSlice : SortSlice) (objects : List Object) (q : Query)
    (filterFunc : Option FilterFunc) :
    (∀ o : Object, o.isNil = true ↔
      (o = Object.nilInterface ∨ ∃ kind hasMeta, o = Object.nilPointer kind hasMeta)) ∧
    (Object.nilInterface ∉ (filterObjects filterFunc q.Filters objects).1 ∧
      ∀ kind hasMeta,
        Object.nilPointer kind hasMeta ∉ (filterObjects filterFunc q.Filters objects).1) ∧
    (∀ o, o ∈ (filterObjects filterFunc q.Filters objects).1 ↔
      o ∈ objects ∧ o ≠ Object.nilInterface ∧
        (∀ kind hasMeta, o ≠ Object.nilPointer kind hasMeta) ∧
        ∀ field value, (field, value) ∈ q.Filters →
          ∀ ff, filterFunc = some ff → ff o { Field := field, Value := value } = true) ∧
    (∀ c ∈ (filterObjects filterFunc q.Filters objects).2,
      c.1 ∈ objects ∧ c.1 ≠ Object.nilInterface ∧
        (∀ kind hasMeta, c.1 ≠ Object.nilPointer kind hasMeta) ∧
        (c.2.Field, c.2.Value) ∈ q.Filters) ∧
    (filterObjects filterFunc q.Filters objects).1 =
      objects.filter (fun o => !o.isNil && q.Filters.all (passes filterFunc o)) ∧
    (∀ o, o ∈ (filterObjects filterFunc q.Filters objects).1 ↔
      o ∈ objects ∧ o.isNil = false ∧ ∀ e ∈ q.Filters, passes filterFunc o e = true) ∧
    (∀ c ∈ (filterObjects filterFunc q.Filters objects).2, c.1.isNil = false) ∧
    DefaultList sortSlice objects { q with Pagination := none } none filterFunc [] =
      some
        { Items := (objects.filter
            (fun o => !o.isNil && q.Filters.all (passes filterFunc o))).map Transferred.object
          TotalItems := ((objects.filter
            (fun o => !o.isNil && q.Filters.all (passes filterFunc o))).length : Int) } := by
  have hk : (fun o => !o.isNil && q.Filters.all (passes filterFunc o)) =
      keeps filterFunc q.Filters := by
    funext o; rfl
  rw [hk]
  have hmem : ∀ o, o ∈ (filterObjects filterFunc q.Filters objects).1 ↔
      o ∈ objects ∧ o.isNil = false ∧ ∀ e ∈ q.Filters, passes filterFunc o e = true := by
    intro o
    rw [filterObjects_fst]
    simp [keeps, List.mem_filter]
  refine ⟨Object.isNil_iff, ⟨?_, ?_⟩, ?_, ?_, filterObjects_fst _ _ _, hmem,
    fun c hc => (filterObjects_calls _ _ _ c hc).1, ?_⟩
  · intro h
    have := ((hmem _).1 h).2.1
    simp [Object.isNil] at this
  · intro kind hasMeta h
    have := ((hmem _).1 h).2.1
    simp [Object.isNil] at this
  · intro o
    rw [hmem, Object.isNil_false_iff]
    constructor
    · rintro ⟨ho, ⟨h1, h2⟩, hp⟩
      refine ⟨ho, h1, h2, ?_⟩
      intro field value he ff hff
      have := hp (field, value) he
      rw [hff] at this
      exact this
    · rintro ⟨ho, h1, h2, hp⟩
      refine ⟨ho, ⟨h1, h2⟩, ?_⟩
      rintro ⟨field, value⟩ he
      cases hff : filterFunc with
      | none => rfl
      | some ff => exact hp field value he ff hff
  · intro c hc
    have h1 := filterObjects_calls _ _ _ c hc
    have h2 := (Object.isNil_false_iff c.1).1 h1.1
    exact ⟨h1.2, h2.1, h2.2, filterObjects_calls_entry _ _ _ c hc⟩
  · have hv : ({ q with Pagination := none } : Query).PaginationValid := Or.inl rfl
    rw [DefaultList_eq sortSlice objects _ none filterFunc [] hv]
    have hf : filteredSorted sortSlice objects { q with Pagination := none } none filterFunc =
        objects.filter (keeps filterFunc q.Filters) := by
      unfold filteredSorted sortObjects
      exact filterObjects_fst _ _ _
    have ht : transformObject [] = Transferred.object := by
      funext o
      cases o <;> rfl
    rw [hf, ht]
    have hp : effectivePagination { q with Pagination := none } = NoPagination := rfl
    rw [hp, GetValidPagination_sentinel]
    simp

/-- C4 at a concrete input: three objects, one of them nil, no filter, page size 1. -/
theorem DefaultList_TotalItems_witness :
    ({ Pagination := some (newPagination 1 0), SortBy := FieldName, Ascending := false,
       Filters := [], LabelSelector := "" } : Query).PaginationValid ∧
    ∃ r, DefaultList shellInsertionSort
        [Object.bare "A" "x", Object.nilInterface, Object.bare "A" "y"]
        { Pagination := some (newPagination 1 0), SortBy := FieldName, Ascending := false,
          Filters := [], LabelSelector := "" }
        (some DefaultCompare) none [] = some r ∧
      r.TotalItems = (([Object.bare "A" "x", Object.nilInterface, Object.bare "A" "y"].filter
        (keeps none [])).length : Int) :=
  ⟨by decide, DefaultList_TotalItems shellInsertionSort shellInsertionSort_conforms _ _ _ _ _
    (by decide)⟩

/-- C6. The `Items` of the result of `DefaultList` has exactly `end - start` elements, where
`(start, end)` is `GetValidPagination(TotalItems)` of the query's pagination (the sentinel
when it is nil), and item `i` is the transform chain applied to the element at index
`start + i` of the filtered and sorted sequence. The pagination is one the specification
allows. -/
theorem DefaultList_Items (sortSlice : SortSlice) (objects : List Object) (q : Query)
    (compareFunc : Option CompareFunc) (filterFunc : Option FilterFunc)
    (transformFuncs : List (Option TransformFunc)) (hq : q.PaginationValid) :
    ∃ r, DefaultList sortSlice objects q compareFunc filterFunc transformFuncs = some r ∧
      (r.Items.length : Int) =
        (GetValidPagination (effectivePagination q) r.TotalItems).2 -
          (GetValidPagination (effectivePagination q) r.TotalItems).1 ∧
      ∀ i : Nat, i < r.Items.length →
        ∃ x, (filteredSorted sortSlice objects q compareFunc filterFunc)[
              (GetValidPagination (effectivePagination q) r.TotalItems).1.toNat + i]? = some x ∧
          r.Items[i]? = some (transformObject transformFuncs x) := by
  refine ⟨_, DefaultList_eq sortSlice objects q compareFunc filterFunc transformFuncs hq, ?_⟩
  have h := GetValidPagination_range (effectivePagination q)
    (filteredSorted sortSlice objects q compareFunc filterFunc).length hq (Int.natCast_nonneg _)
  simp only []
  generalize (GetValidPagination (effectivePagination q)
    (filteredSorted sortSlice objects q compareFunc filterFunc).length) = range at h ⊢
  generalize filteredSorted sortSlice objects q compareFunc filterFunc = sorted at h ⊢
  have hlen : ((sorted.drop range.1.toNat).take (range.2 - range.1).toNat).length =
      (range.2 - range.1).toNat := by
    rw [List.length_take, List.length_drop]
    omega
  refine ⟨?_, ?_⟩
  · rw [List.length_map, hlen]
    omega
  · intro i hi
    rw [List.length_map, hlen] at hi
    have hlt : range.1.toNat + i < sorted.length := by omega
    refine ⟨sorted[range.1.toNat + i], List.getElem?_eq_getElem hlt, ?_⟩
    rw [List.getElem?_map, List.getElem?_take_of_lt hi, List.getElem?_drop,
      List.getElem?_eq_getElem hlt]
    rfl

/-! ## The default comparator -/

theorem data_lt_iff (a b : String) : a.data < b.data ↔ a < b := String.lt_iff_toList_lt.symm

theorem stringsCompare_pos (a b : String) : decide (stringsCompare a b > 0) = true ↔ b < a := by
  unfold stringsCompare
  rw [decide_eq_true_iff]
  by_cases h : a = b
  · subst h; simp
  · rw [if_neg h]
    by_cases h2 : a.data < b.data
    · rw [if_pos h2]
      constructor
      · intro h3; omega
      · intro h3; exact absurd ((data_lt_iff a b).1 h2) (lt_asymm h3)
    · rw [if_neg h2]
      constructor
      · intro _
        rcases lt_trichotomy a b with h4 | h4 | h4
        · exact absurd ((data_lt_iff a b).2 h4) h2
        · exact absurd h4 h
        · exact h4
      · intro _; omega

theorem stringsCompare_neg (a b : String) : decide (stringsCompare a b < 0) = true ↔ a < b := by
  unfold stringsCompare
  rw [decide_eq_true_iff]
  by_cases h : a = b
  · subst h; simp
  · rw [if_neg h]
    by_cases h2 : a.data < b.data
    · rw [if_pos h2]
      constructor
      · intro _; exact (data_lt_iff a b).1 h2
      · intro _; omega
    · rw [if_neg h2]
      constructor
      · intro h3; omega
      · intro h3; exact absurd ((data_lt_iff a b).2 h3) h2

theorem DefaultObjectMetaCompare_name (left right : ObjectMeta) :
    DefaultObjectMetaCompare left right FieldName = true ↔ right.Name < left.Name := by
  unfold DefaultObjectMetaCompare
  rw [if_pos rfl]
  exact stringsCompare_pos _ _

theorem DefaultObjectMetaCompare_notName (left right : ObjectMeta) :
    DefaultObjectMetaCompare left right ("!" ++ FieldName) = true ↔ left.Name < right.Name := by
  unfold DefaultObjectMetaCompare
  rw [if_neg (by decide), if_pos rfl]
  exact stringsCompare_neg _ _

theorem DefaultObjectMetaCompare_default (left right : ObjectMeta) (sortBy : Field)
    (h1 : sortBy ≠ FieldName) (h2 : sortBy ≠ "!" ++ FieldName) :
    DefaultObjectMetaCompare left right sortBy = true ↔
      (right.CreationTimestamp.instant < left.CreationTimestamp.instant ∨
        (left.CreationTimestamp.instant = right.CreationTimestamp.instant ∧
          right.Name < left.Name)) := by
  unfold DefaultObjectMetaCompare
  rw [if_neg h1, if_neg h2]
  simp only [Time.Equal, Time.After]
  by_cases h : left.CreationTimestamp.instant = right.CreationTimestamp.instant
  · rw [if_pos (by simpa using h), stringsCompare_pos]
    constructor
    · intro h3; exact Or.inr ⟨h, h3⟩
    · rintro (h3 | h3)
      · omega
      · exact h3.2
  · rw [if_neg (by simpa using h), decide_eq_true_iff]
    constructor
    · intro h3; exact Or.inl h3
    · rintro (h3 | h3)
      · exact h3
      · exact absurd h3.1 h

theorem DefaultObjectMetaCompare_asymm (left right : ObjectMeta) (sortBy : Field)
    (h : DefaultObjectMetaCompare left right sortBy = true) :
    DefaultObjectMetaCompare right left sortBy = false := by
  rw [Bool.eq_false_iff]
  intro h'
  by_cases h1 : sortBy = FieldName
  · subst h1
    rw [DefaultObjectMetaCompare_name] at h h'
    exact lt_asymm h h'
  · by_cases h2 : sortBy = "!" ++ FieldName
    · subst h2
      rw [DefaultObjectMetaCompare_notName] at h h'
      exact lt_asymm h h'
    · rw [DefaultObjectMetaCompare_default _ _ _ h1 h2] at h h'
      rcases h with h | h <;> rcases h' with h' | h'
      · omega
      · omega
      · omega
      · exact lt_asymm h.2 h'.2

theorem DefaultObjectMetaCompare_trans (a b c : ObjectMeta) (sortBy : Field)
    (hab : DefaultObjectMetaCompare a b sortBy = true)
    (hbc : DefaultObjectMetaCompare b c sortBy = true) :
    DefaultObjectMetaCompare a c sortBy = true := by
  by_cases h1 : sortBy = FieldName
  · subst h1
    rw [DefaultObjectMetaCompare_name] at hab hbc ⊢
    exact lt_trans hbc hab
  · by_cases h2 : sortBy = "!" ++ FieldName
    · subst h2
      rw [DefaultObjectMetaCompare_notName] at hab hbc ⊢
      exact lt_trans hab hbc
    · rw [DefaultObjectMetaCompare_default _ _ _ h1 h2] at hab hbc ⊢
      rcases hab with hab | hab <;> rcases hbc with hbc | hbc
      · left; omega
      · left; omega
      · left; omega
      · right; exact ⟨by omega, lt_trans hbc.2 hab.2⟩

theorem DefaultObjectMetaCompare_total (a b : ObjectMeta) (sortBy : Field)
    (hne : a.Name ≠ b.Name) :
    DefaultObjectMetaCompare a b sortBy = true ∨ DefaultObjectMetaCompare b a sortBy = true := by
  have hn : a.Name < b.Name ∨ b.Name < a.Name := lt_or_gt_of_ne hne
  by_cases h1 : sortBy = FieldName
  · subst h1
    rw [DefaultObjectMetaCompare_name, DefaultObjectMetaCompare_name]
    exact hn.symm
  · by_cases h2 : sortBy = "!" ++ FieldName
    · subst h2
      rw [DefaultObjectMetaCompare_notName, DefaultObjectMetaCompare_notName]
      exact hn
    · rw [DefaultObjectMetaCompare_default _ _ _ h1 h2,
        DefaultObjectMetaCompare_default _ _ _ h1 h2]
      rcases lt_trichotomy a.CreationTimestamp.instant b.CreationTimestamp.instant with h | h | h
      · exact Or.inr (Or.inl h)
      · rcases hn with hn | hn
        · exact Or.inr (Or.inr ⟨h.symm, hn⟩)
        · exact Or.inl (Or.inr ⟨h, hn⟩)
      · exact Or.inl (Or.inl h)

/-- C9. `DefaultObjectMetaCompare(left, right, name)` is true iff the name of `left` is
lexicographically greater than the name of `right`; with the field `creationTimestamp` it
is true iff `left` was created after `right`, or the two creation times are equal and the
name of `left` is lexicographically greater. -/
theorem DefaultObjectMetaCompare_spec (left right : ObjectMeta) :
    (DefaultObjectMetaCompare left right FieldName = true ↔ right.Name < left.Name) ∧
    (DefaultObjectMetaCompare left right FieldCreationTimeStamp = true ↔
      (left.CreationTimestamp.After right.CreationTimestamp = true ∨
        (left.CreationTimestamp.Equal right.CreationTimestamp = true ∧
          right.Name < left.Name))) := by
  refine ⟨DefaultObjectMetaCompare_name left right, ?_⟩
  rw [DefaultObjectMetaCompare_default left right FieldCreationTimeStamp (by decide) (by decide)]
  simp [Time.After, Time.Equal]

/-- C10, as stated, fails: for the unrecognised field `foo` the comparator returns true on
an object created later than the other one. -/
theorem DefaultObjectMetaCompare_unrecognized_counterexample :
    DefaultObjectMetaCompare
      { Name := "a", Namespace := "", UID := "", CreationTimestamp := { instant := 2 },
        Labels := [], Annotations := [], OwnerReferences := [] }
      { Name := "b", Namespace := "", UID := "", CreationTimestamp := { instant := 1 },
        Labels := [], Annotations := [], OwnerReferences := [] }
      "foo" = true := by
  decide

/-- C10, amended. For every sort field other than `name` and `!name`, so for every
unrecognised field, `DefaultObjectMetaCompare` gives what it gives for `creationTimestamp`:
the `default` case falls through to the comparison of creation times, with the name as
tie-break. -/
theorem DefaultObjectMetaCompare_unrecognized (left right : ObjectMeta) (sortBy : Field)
    (h1 : sortBy ≠ FieldName) (h2 : sortBy ≠ "!" ++ FieldName) :
    DefaultObjectMetaCompare left right sortBy =
      DefaultObjectMetaCompare left right FieldCreationTimeStamp := by
  have e1 : ¬ FieldCreationTimeStamp = FieldName := by decide
  have e2 : ¬ FieldCreationTimeStamp = "!" ++ FieldName := by decide
  unfold DefaultObjectMetaCompare
  simp only [if_neg h1, if_neg h2, if_neg e1, if_neg e2]

/-- C10, amended, at a concrete input: the field `foo`. -/
theorem DefaultObjectMetaCompare_unrecognized_witness :
    DefaultObjectMetaCompare
      { Name := "a", Namespace := "", UID := "", CreationTimestamp := { instant := 2 },
        Labels := [], Annotations := [], OwnerReferences := [] }
      { Name := "b", Namespace := "", UID := "", CreationTimestamp := { instant := 1 },
        Labels := [], Annotations := [], OwnerReferences := [] }
      "foo" =
    DefaultObjectMetaCompare
      { Name := "a", Namespace := "", UID := "", CreationTimestamp := { instant := 2 },
        Labels := [], Annotations := [], OwnerReferences := [] }
      { Name := "b", Namespace := "", UID := "", CreationTimestamp := { instant := 1 },
        Labels := [], Annotations := [], OwnerReferences := [] }
      FieldCreationTimeStamp :=
  DefaultObjectMetaCompare_unrecognized _ _ "foo" (by decide) (by decide)

theorem DefaultCompare_left_none (x y : Object) (f : Field) (hx : x.GetObjectMeta = none) :
    DefaultCompare x y f = false := by
  unfold DefaultCompare DefaultCompareRun
  rw [hx]
  by_cases h1 : (!x.isAccessor) = true
  · rw [if_pos h1]; rfl
  · rw [if_neg h1]
    by_cases h2 : (!y.isAccessor) = true
    · rw [if_pos h2]; rfl
    · rw [if_neg h2]; rfl

theorem DefaultCompare_right_none (x y : Object) (f : Field) (hy : y.GetObjectMeta = none) :
    DefaultCompare x y f = false := by
  unfold DefaultCompare DefaultCompareRun
  rw [hy]
  by_cases h1 : (!x.isAccessor) = true
  · rw [if_pos h1]; rfl
  · rw [if_neg h1]
    by_cases h2 : (!y.isAccessor) = true
    · rw [if_pos h2]; rfl
    · rw [if_neg h2]
      cases x.GetObjectMeta <;> rfl

theorem GetObjectMeta_some (x : Object) (m : ObjectMeta) (h : x.GetObjectMeta = some m) :
    ∃ k s, x = Object.resource k m s := by
  cases x <;> simp [Object.GetObjectMeta] at h
  exact ⟨_, _, by rw [h]⟩

theorem DefaultCompare_true (x y : Object) (f : Field) (h : DefaultCompare x y f = true) :
    ∃ k m s k' m' s', x = Object.resource k m s ∧ y = Object.resource k' m' s' ∧
      DefaultObjectMetaCompare m m' f = true := by
  cases hx : x.GetObjectMeta with
  | none => rw [DefaultCompare_left_none x y f hx] at h; exact absurd h (by simp)
  | some m =>
    cases hy : y.GetObjectMeta with
    | none => rw [DefaultCompare_right_none x y f hy] at h; exact absurd h (by simp)
    | some m' =>
      obtain ⟨k, s, rfl⟩ := GetObjectMeta_some x m hx
      obtain ⟨k', s', rfl⟩ := GetObjectMeta_some y m' hy
      exact ⟨k, m, s, k', m', s', rfl, rfl, h⟩

theorem DefaultCompare_resource (k k' : String) (m m' : ObjectMeta) (s s' : Option Time)
    (f : Field) :
    DefaultCompare (Object.resource k m s) (Object.resource k' m' s') f =
      DefaultObjectMetaCompare m m' f := rfl

theorem DefaultCompare_asymm (x y : Object) (f : Field) (h : DefaultCompare x y f = true) :
    DefaultCompare y x f = false := by
  obtain ⟨k, m, s, k', m', s', rfl, rfl, hm⟩ := DefaultCompare_true x y f h
  rw [DefaultCompare_resource]
  exact DefaultObjectMetaCompare_asymm m m' f hm

theorem DefaultCompare_trans (x y z : Object) (f : Field) (hxy : DefaultCompare x y f = true)
    (hyz : DefaultCompare y z f = true) : DefaultCompare x z f = true := by
  obtain ⟨k, m, s, k', m', s', rfl, rfl, hm⟩ := DefaultCompare_true x y f hxy
  obtain ⟨k1, m1, s1, k2, m2, s2, h1, rfl, hm2⟩ := DefaultCompare_true _ z f hyz
  cases h1
  rw [DefaultCompare_resource]
  exact DefaultObjectMetaCompare_trans m m' m2 f hm hm2

/-! ## The sorting step -/

theorem filteredSorted_some (sortSlice : SortSlice) (objects : List Object) (q : Query)
    (cf : CompareFunc) (filterFunc : Option FilterFunc) :
    filteredSorted sortSlice objects q (some cf) filterFunc =
      sortSlice (lessOf cf q) (objects.filter (keeps filterFunc q.Filters)) := by
  unfold filteredSorted sortObjects
  rw [filterObjects_fst]

theorem DefaultList_noPagination (sortSlice : SortSlice) (objects : List Object) (q : Query)
    (compareFunc : Option CompareFunc) (filterFunc : Option FilterFunc)
    (transformFuncs : List (Option TransformFunc))
    (hp : effectivePagination q = NoPagination) :
    DefaultList sortSlice objects q compareFunc filterFunc transformFuncs =
      some
        { Items := (filteredSorted sortSlice objects q compareFunc filterFunc).map
            (transformObject transformFuncs)
          TotalItems := (filteredSorted sortSlice objects q compareFunc filterFunc).length } := by
  have hv : q.PaginationValid := Or.inl hp
  rw [DefaultList_eq sortSlice objects q compareFunc filterFunc transformFuncs hv, hp,
    GetValidPagination_sentinel]
  simp

/-- C7, as stated, fails. The sort of `DefaultList` is `sort.Slice`, which is not stable.
With a sort that meets all that is assumed of `sort.Slice` (the one Go releases before 1.19
run on a slice of seven elements), the objects `x` of `ns1` and `x` of `ns2` are not ordered
by the default comparator, the first precedes the second in the input, and the second
precedes the first in the items returned with `Ascending` false. -/
theorem DefaultList_sort_stable_counterexample :
    shellInsertionSort.Conforms ∧
    List.Sublist [sampleObject "x" "ns1" 5, sampleObject "x" "ns2" 5]
      (filterObjects none sampleQuery.Filters sampleObjects).1 ∧
    DefaultCompare (sampleObject "x" "ns1" 5) (sampleObject "x" "ns2" 5) sampleQuery.SortBy
      = false ∧
    DefaultCompare (sampleObject "x" "ns2" 5) (sampleObject "x" "ns1" 5) sampleQuery.SortBy
      = false ∧
    sampleQuery.Ascending = false ∧
    DefaultList shellInsertionSort sampleObjects sampleQuery (some DefaultCompare) none [] =
      some
        { Items :=
            [Transferred.object (sampleObject "a" "" 9), Transferred.object (sampleObject "b" "" 8),
             Transferred.object (sampleObject "c" "" 7), Transferred.object (sampleObject "d" "" 6),
             Transferred.object (sampleObject "x" "ns2" 5),
             Transferred.object (sampleObject "x" "ns1" 5),
             Transferred.object (sampleObject "old" "" 0)]
          TotalItems := 7 } ∧
    ¬ List.Sublist [sampleObject "x" "ns1" 5, sampleObject "x" "ns2" 5]
      (filteredSorted shellInsertionSort sampleObjects sampleQuery (some DefaultCompare) none) := by
  refine ⟨shellInsertionSort_conforms, ?_, ?_, ?_, rfl, ?_, ?_⟩
  · decide
  · decide
  · decide
  · decide
  · decide

/-- C7, amended. The sort of `DefaultList` orders the kept objects by the comparator without
being stable: when `Ascending` is false and the comparator is a strict weak ordering of the
kept objects, the sorted sequence is a rearrangement of the kept objects in which no object
comes before an object that the comparator puts above it. Nothing is said about two objects
that the comparator does not order. -/
theorem DefaultList_sort_ordered (sortSlice : SortSlice) (hS : sortSlice.Conforms)
    (objects : List Object) (q : Query) (cf : CompareFunc) (filterFunc : Option FilterFunc)
    (hasc : q.Ascending = false)
    (hw : StrictWeakOn (fun x y => cf x y q.SortBy)
      (objects.filter (keeps filterFunc q.Filters))) :
    List.Perm (filteredSorted sortSlice objects q (some cf) filterFunc)
      (objects.filter (keeps filterFunc q.Filters)) ∧
    List.Pairwise (fun x y => cf y x q.SortBy = false)
      (filteredSorted sortSlice objects q (some cf) filterFunc) := by
  refine ⟨filteredSorted_perm sortSlice hS objects q (some cf) filterFunc, ?_⟩
  rw [filteredSorted_some]
  have hl : lessOf cf q = fun x y => cf x y q.SortBy := by
    funext x y
    simp [lessOf, hasc]
  rw [hl]
  exact hS.sorted _ _ hw

/-- C7, amended, at a concrete input: two objects with different creation times. -/
theorem DefaultList_sort_ordered_witness :
    sampleQuery.Ascending = false ∧
    List.Perm
      (filteredSorted shellInsertionSort [sampleObject "a" "" 1, sampleObject "b" "" 2]
        sampleQuery (some DefaultCompare) none)
      ([sampleObject "a" "" 1, sampleObject "b" "" 2].filter (keeps none sampleQuery.Filters)) ∧
    List.Pairwise (fun x y => DefaultCompare y x sampleQuery.SortBy = false)
      (filteredSorted shellInsertionSort [sampleObject "a" "" 1, sampleObject "b" "" 2]
        sampleQuery (some DefaultCompare) none) :=
  ⟨rfl, DefaultList_sort_ordered shellInsertionSort shellInsertionSort_conforms
    [sampleObject "a" "" 1, sampleObject "b" "" 2] sampleQuery DefaultCompare none rfl
    ⟨by decide, by decide, by decide⟩⟩

theorem strictWeakOn_of_total (gt : Object → Object → Bool) (l : List Object)
    (hasym : ∀ x y, gt x y = true → gt y x = false)
    (htrans : ∀ x y z, gt x y = true → gt y z = true → gt x z = true)
    (htot : ∀ x ∈ l, ∀ y ∈ l, x ≠ y → gt x y = true ∨ gt y x = true) :
    StrictWeakOn gt l := by
  refine ⟨?_, fun x _ y _ z _ => htrans x y z, ?_⟩
  · intro x _
    cases h : gt x x with
    | false => rfl
    | true => have := hasym x x h; rw [h] at this; exact absurd this (by simp)
  · intro x hx y hy z hz hxy hyz
    cases hxz : gt x z with
    | false => rfl
    | true =>
      exfalso
      have hxy' : x ≠ y := by
        rintro rfl; rw [hxz] at hyz; exact absurd hyz (by simp)
      have hyz' : y ≠ z := by
        rintro rfl; rw [hxz] at hxy; exact absurd hxy (by simp)
      have hzy : gt z y = true := by
        rcases htot y hy z hz hyz' with h | h
        · rw [h] at hyz; exact absurd hyz (by simp)
        · exact h
      have := htrans x z y hxz hzy
      rw [this] at hxy
      exact absurd hxy (by simp)

theorem sorted_unique (gt : Object → Object → Bool) (l₁ l₂ : List Object)
    (hperm : List.Perm l₁ l₂) (hnd : l₁.Nodup)
    (hasym : ∀ x y, gt x y = true → gt y x = false)
    (htot : ∀ x ∈ l₁, ∀ y ∈ l₁, x ≠ y → gt x y = true ∨ gt y x = true)
    (h1 : l₁.Pairwise (fun x y => gt y x = false))
    (h2 : l₂.Pairwise (fun x y => gt y x = false)) : l₁ = l₂ := by
  have up : ∀ l : List Object, List.Perm l₁ l → l.Pairwise (fun x y => gt y x = false) →
      l.Pairwise (fun x y => gt x y = true) := by
    intro l hp hl
    have hndl : l.Nodup := hp.nodup_iff.1 hnd
    refine List.Pairwise.imp_of_mem ?_ (hl.and hndl)
    intro a b ha hb hab
    rcases htot a (hp.mem_iff.2 ha) b (hp.mem_iff.2 hb) hab.2 with h | h
    · exact h
    · rw [h] at hab; exact absurd hab.1 (by simp)
  haveI : IsAntisymm Object (fun x y => gt x y = true) :=
    ⟨fun a b hab hba => by
      have := hasym a b hab
      rw [hba] at this
      exact absurd this (by simp)⟩
  exact List.eq_of_perm_of_sorted hperm (up l₁ (List.Perm.refl _) h1) (up l₂ hperm h2)

/-- C8. For objects that all carry metadata and have pairwise distinct names, the default
comparator and no pagination restriction, the items `DefaultList` returns with `Ascending`
true are exactly the reverse of the items it returns with `Ascending` false. It holds for
every sort field (so for `name` and for `creationTimestamp`, equal creation times
included), every filter and every chain of transforms. -/
theorem DefaultList_ascending_reverses (sortSlice : SortSlice) (hS : sortSlice.Conforms)
    (objects : List Object) (q : Query) (filterFunc : Option FilterFunc)
    (transformFuncs : List (Option TransformFunc))
    (hmeta : ∀ o ∈ objects, o.GetObjectMeta.isSome = true)
    (hnames : objects.Pairwise
      (fun x y => x.GetObjectMeta.map ObjectMeta.Name ≠ y.GetObjectMeta.map ObjectMeta.Name))
    (hpag : q.Pagination = none ∨ q.Pagination = some NoPagination) :
    ∃ rd ra,
      DefaultList sortSlice objects { q with Ascending := false } (some DefaultCompare)
        filterFunc transformFuncs = some rd ∧
      DefaultList sortSlice objects { q with Ascending := true } (some DefaultCompare)
        filterFunc transformFuncs = some ra ∧
      ra.Items = rd.Items.reverse ∧ ra.TotalItems = rd.TotalItems := by
  have hp : ∀ b, effectivePagination { q with Ascending := b } = NoPagination := by
    intro b
    rcases hpag with h | h <;> simp [effectivePagination, h]
  refine ⟨_, _, DefaultList_noPagination _ _ _ _ _ _ (hp false),
    DefaultList_noPagination _ _ _ _ _ _ (hp true), ?_⟩
  simp only [filteredSorted_some]
  generalize hkept : objects.filter (keeps filterFunc q.Filters) = kept
  have hsub : List.Sublist kept objects := hkept ▸ List.filter_sublist _
  have hknames := hnames.sublist hsub
  have hnd : kept.Nodup := hknames.imp (fun {a b} h hab => h (by rw [hab]))
  let gt : Object → Object → Bool := fun x y => DefaultCompare x y q.SortBy
  have hasym : ∀ x y, gt x y = true → gt y x = false :=
    fun x y h => DefaultCompare_asymm x y _ h
  have htrans : ∀ x y z, gt x y = true → gt y z = true → gt x z = true :=
    fun x y z h1 h2 => DefaultCompare_trans x y z _ h1 h2
  have htot : ∀ x ∈ kept, ∀ y ∈ kept, x ≠ y → gt x y = true ∨ gt y x = true := by
    intro x hx y hy hxy
    have hne := List.Pairwise.forall (fun a b h => Ne.symm h) hknames hx hy hxy
    have hxm := hmeta x (hsub.subset hx)
    have hym := hmeta y (hsub.subset hy)
    obtain ⟨m, hm⟩ := Option.isSome_iff_exists.1 hxm
    obtain ⟨m', hm'⟩ := Option.isSome_iff_exists.1 hym
    obtain ⟨k, s, rfl⟩ := GetObjectMeta_some x m hm
    obtain ⟨k', s', rfl⟩ := GetObjectMeta_some y m' hm'
    have hn : m.Name ≠ m'.Name := by
      intro h; apply hne; simp [Object.GetObjectMeta, h]
    exact DefaultObjectMetaCompare_total m m' _ hn
  have hdesc : lessOf DefaultCompare { q with Ascending := false } = gt := by
    funext x y; simp [lessOf, gt]
  have hasc : sortSlice (lessOf DefaultCompare { q with Ascending := true }) kept =
      sortSlice (fun x y => gt y x) kept := by
    apply hS.offDiagonal _ _ _ hnd
    intro x hx y hy hxy
    simp only [lessOf, Bool.not_true, Bool.false_eq_true, if_false]
    show (!gt x y) = gt y x
    rcases htot x hx y hy hxy with h | h
    · rw [h, hasym x y h]; rfl
    · rw [h, hasym y x h]; rfl
  rw [hdesc, hasc]
  have hw1 : StrictWeakOn gt kept := strictWeakOn_of_total gt kept hasym htrans htot
  have hw2 : StrictWeakOn (fun x y => gt y x) kept :=
    strictWeakOn_of_total _ kept (fun x y h => hasym y x h)
      (fun x y z h1 h2 => htrans z y x h2 h1)
      (fun x hx y hy hxy => (htot x hx y hy hxy).symm)
  have hs1 := hS.sorted gt kept hw1
  have hs2 := hS.sorted (fun x y => gt y x) kept hw2
  have hp1 := hS.perm gt kept
  have hp2 := hS.perm (fun x y => gt y x) kept
  have heq : sortSlice gt kept = (sortSlice (fun x y => gt y x) kept).reverse := by
    apply sorted_unique gt _ _ (hp1.trans ((List.reverse_perm _).trans hp2).symm)
      (hp1.nodup_iff.2 hnd) hasym
    · intro x hx y hy
      exact htot x (hp1.mem_iff.1 hx) y (hp1.mem_iff.1 hy)
    · exact hs1
    · rw [List.pairwise_reverse]; exact hs2
  refine ⟨?_, ?_⟩
  · rw [heq, List.map_reverse, List.reverse_reverse]
  · rw [hp1.length_eq, hp2.length_eq]

/-- C8 at a concrete input: three templates created at the same time. -/
theorem DefaultList_ascending_reverses_witness :
    (∀ o ∈ sampleTemplates, o.GetObjectMeta.isSome = true) ∧
    sampleTemplates.Pairwise
      (fun x y => x.GetObjectMeta.map ObjectMeta.Name ≠ y.GetObjectMeta.map ObjectMeta.Name) ∧
    ∃ rd ra,
      DefaultList shellInsertionSort sampleTemplates { sampleQuery with Ascending := false }
        (some DefaultCompare) none [] = some rd ∧
      DefaultList shellInsertionSort sampleTemplates { sampleQuery with Ascending := true }
        (some DefaultCompare) none [] = some ra ∧
      ra.Items = rd.Items.reverse ∧ ra.TotalItems = rd.TotalItems :=
  ⟨by decide, by decide,
    DefaultList_ascending_reverses shellInsertionSort shellInsertionSort_conforms
      sampleTemplates sampleQuery none [] (by decide) (by decide) (Or.inl rfl)⟩

/-- C6 at a concrete input: the second and third of three templates, by ascending name. -/
theorem DefaultList_Items_witness :
    samplePageQuery.PaginationValid ∧
    ∃ r, DefaultList shellInsertionSort sampleTemplates samplePageQuery (some DefaultCompare)
        none [] = some r ∧
      (r.Items.length : Int) =
        (GetValidPagination (effectivePagination samplePageQuery) r.TotalItems).2 -
          (GetValidPagination (effectivePagination samplePageQuery) r.TotalItems).1 ∧
      ∀ i : Nat, i < r.Items.length →
        ∃ x, (filteredSorted shellInsertionSort sampleTemplates samplePageQuery
              (some DefaultCompare) none)[
              (GetValidPagination (effectivePagination samplePageQuery)
                r.TotalItems).1.toNat + i]? = some x ∧
          r.Items[i]? = some (transformObject [] x) :=
  ⟨by decide,
    DefaultList_Items shellInsertionSort sampleTemplates samplePageQuery (some DefaultCompare)
      none [] (by decide)⟩

/-! ## The default comparator is a strict weak ordering -/

theorem DefaultObjectMetaCompare_irrefl (a : ObjectMeta) (f : Field) :
    DefaultObjectMetaCompare a a f = false := by
  cases h : DefaultObjectMetaCompare a a f with
  | false => rfl
  | true =>
    have := DefaultObjectMetaCompare_asymm a a f h
    rw [h] at this
    exact absurd this (by simp)

theorem DefaultObjectMetaCompare_incomparable (a b : ObjectMeta) (f : Field) :
    (DefaultObjectMetaCompare a b f = false ∧ DefaultObjectMetaCompare b a f = false) ↔
      (a.Name = b.Name ∧
        (f = FieldName ∨ f = "!" ++ FieldName ∨
          a.CreationTimestamp.instant = b.CreationTimestamp.instant)) := by
  have hname : ∀ x y : String, (¬ x < y ∧ ¬ y < x) ↔ x = y := by
    intro x y
    constructor
    · rintro ⟨h1, h2⟩
      rcases lt_trichotomy x y with h | h | h
      · exact absurd h h1
      · exact h
      · exact absurd h h2
    · rintro rfl
      exact ⟨lt_irrefl _, lt_irrefl _⟩
  rw [Bool.eq_false_iff, Bool.eq_false_iff]
  by_cases h1 : f = FieldName
  · subst h1
    rw [Ne, Ne, DefaultObjectMetaCompare_name, DefaultObjectMetaCompare_name]
    constructor
    · intro h; exact ⟨((hname _ _).1 ⟨h.2, h.1⟩), Or.inl rfl⟩
    · intro h; exact ⟨((hname _ _).2 h.1).2, ((hname _ _).2 h.1).1⟩
  · by_cases h2 : f = "!" ++ FieldName
    · subst h2
      rw [Ne, Ne, DefaultObjectMetaCompare_notName, DefaultObjectMetaCompare_notName]
      constructor
      · intro h; exact ⟨((hname _ _).1 ⟨h.1, h.2⟩), Or.inr (Or.inl rfl)⟩
      · intro h; exact ⟨((hname _ _).2 h.1).1, ((hname _ _).2 h.1).2⟩
    · rw [Ne, Ne, DefaultObjectMetaCompare_default _ _ _ h1 h2,
        DefaultObjectMetaCompare_default _ _ _ h1 h2]
      constructor
      · rintro ⟨hab, hba⟩
        have ht : a.CreationTimestamp.instant = b.CreationTimestamp.instant := by
          by_contra hne
          rcases lt_or_gt_of_ne hne with h | h
          · exact hba (Or.inl h)
          · exact hab (Or.inl h)
        refine ⟨(hname _ _).1 ⟨?_, ?_⟩, Or.inr (Or.inr ht)⟩
        · intro h; exact hba (Or.inr ⟨ht.symm, h⟩)
        · intro h; exact hab (Or.inr ⟨ht, h⟩)
      · rintro ⟨hn, ht⟩
        have ht : a.CreationTimestamp.instant = b.CreationTimestamp.instant := by
          rcases ht with h | h | h
          · exact absurd h h1
          · exact absurd h h2
          · exact h
        constructor
        · rintro (h | h)
          · omega
          · rw [hn] at h; exact lt_irrefl _ h.2
        · rintro (h | h)
          · omega
          · rw [hn] at h; exact lt_irrefl _ h.2

/-- C11. For each fixed sort field `DefaultObjectMetaCompare` is a strict weak ordering of
object metadata: it is irreflexive, it is transitive, and being unordered by it (neither
`compare(a, b, f)` nor `compare(b, a, f)`) is transitive. -/
theorem DefaultObjectMetaCompare_strict_weak (f : Field) :
    (∀ a : ObjectMeta, DefaultObjectMetaCompare a a f = false) ∧
    (∀ a b c : ObjectMeta, DefaultObjectMetaCompare a b f = true →
      DefaultObjectMetaCompare b c f = true → DefaultObjectMetaCompare a c f = true) ∧
    (∀ a b c : ObjectMeta,
      (DefaultObjectMetaCompare a b f = false ∧ DefaultObjectMetaCompare b a f = false) →
      (DefaultObjectMetaCompare b c f = false ∧ DefaultObjectMetaCompare c b f = false) →
      (DefaultObjectMetaCompare a c f = false ∧ DefaultObjectMetaCompare c a f = false)) := by
  refine ⟨fun a => DefaultObjectMetaCompare_irrefl a f,
    fun a b c => DefaultObjectMetaCompare_trans a b c f, ?_⟩
  intro a b c hab hbc
  rw [DefaultObjectMetaCompare_incomparable] at hab hbc ⊢
  refine ⟨hab.1.trans hbc.1, ?_⟩
  rcases hab.2 with h | h | h
  · exact Or.inl h
  · exact Or.inr (Or.inl h)
  · rcases hbc.2 with h' | h' | h'
    · exact Or.inl h'
    · exact Or.inr (Or.inl h')
    · exact Or.inr (Or.inr (h.trans h'))

/-! ## `FilterFunc.And` and `FilterFunc.Or` -/

/-- C12. A nil operand of `And` or `Or` is the identity: `f.And(nil)`, `nil.And(f)`,
`f.Or(nil)` and `nil.Or(f)` all behave as `f`; with both operands nil `And` is always true
and `Or` always false. The functions are total, so no call fails on a nil operand. -/
theorem FilterFunc_nil_operand (f : FilterFunc) (o : Object) (x : Filter) :
    FilterFunc.And (some f) none o x = f o x ∧
    FilterFunc.And none (some f) o x = f o x ∧
    FilterFunc.Or (some f) none o x = f o x ∧
    FilterFunc.Or none (some f) o x = f o x ∧
    FilterFunc.And none none o x = true ∧
    FilterFunc.Or none none o x = false := by
  simp [FilterFunc.And, FilterFunc.Or, alwaysTrueFilter, alwaysFalseFilter]

/-- C13. The methods `And` and `Or` are associative and commutative as boolean-valued
functions, for all operands `f`, `g`, `h`, each of which may be nil. -/
theorem FilterFunc_assoc_comm (f g h : Option FilterFunc) (o : Object) (x : Filter) :
    FilterFunc.And (some (FilterFunc.And f g)) h o x =
      FilterFunc.And f (some (FilterFunc.And g h)) o x ∧
    FilterFunc.And f g o x = FilterFunc.And g f o x ∧
    FilterFunc.Or (some (FilterFunc.Or f g)) h o x =
      FilterFunc.Or f (some (FilterFunc.Or g h)) o x ∧
    FilterFunc.Or f g o x = FilterFunc.Or g f o x := by
  refine ⟨?_, ?_, ?_, ?_⟩
  · simp only [FilterFunc.And]; exact Bool.and_assoc _ _ _
  · simp only [FilterFunc.And]; exact Bool.and_comm _ _
  · simp only [FilterFunc.Or]; exact Bool.or_assoc _ _ _
  · simp only [FilterFunc.Or]; exact Bool.or_comm _ _

/-! ## The label expression language -/

theorem splitFirst_append (sep : Char) (a b : List Char) (h : sep ∉ a) :
    splitFirst sep (a ++ sep :: b) = some (a, b) := by
  induction a with
  | nil => simp [splitFirst]
  | cons c cs ih =>
    have hc : c ≠ sep := fun e => h (e ▸ List.mem_cons_self _ _)
    have hcs : sep ∉ cs := fun e => h (List.mem_cons_of_mem _ e)
    simp [splitFirst, hc, ih hcs]

theorem splitFirst_none (sep : Char) (a : List Char) (h : sep ∉ a) :
    splitFirst sep a = none := by
  induction a with
  | nil => rfl
  | cons c cs ih =>
    have hc : c ≠ sep := fun e => h (e ▸ List.mem_cons_self _ _)
    have hcs : sep ∉ cs := fun e => h (List.mem_cons_of_mem _ e)
    simp [splitFirst, hc, ih hcs]

theorem stringsSplitN2_clause (k v : String) (h : '=' ∉ k.data) :
    stringsSplitN2 (k ++ "=" ++ v) '=' = [k, v] := by
  have hd : (k ++ "=" ++ v).data = k.data ++ '=' :: v.data := by
    rw [String.data_append, String.data_append]
    simp
  unfold stringsSplitN2
  rw [hd, splitFirst_append '=' k.data v.data h]

theorem stringsSplitN2_negated (k v : String) (h : '=' ∉ k.data) :
    stringsSplitN2 (k ++ "!=" ++ v) '=' = [k ++ "!", v] := by
  have hd : (k ++ "!=" ++ v).data = (k.data ++ ['!']) ++ '=' :: v.data := by
    rw [String.data_append, String.data_append]
    simp
  have hk : '=' ∉ k.data ++ ['!'] := by
    simp only [List.mem_append, List.mem_singleton, not_or]
    exact ⟨h, by decide⟩
  unfold stringsSplitN2
  rw [hd, splitFirst_append '=' _ v.data hk]
  have e : String.mk (k.data ++ ['!']) = k ++ "!" := by
    apply String.ext
    rw [String.data_append]
  simp only [e]

theorem stringsSplitN2_bare (k : String) (h : '=' ∉ k.data) :
    stringsSplitN2 k '=' = [k] := by
  unfold stringsSplitN2
  rw [splitFirst_none '=' k.data h]

theorem stringsHasSuffix_bang (k : String) : stringsHasSuffix (k ++ "!") "!" = true := by
  unfold stringsHasSuffix
  rw [String.data_append]
  simp [List.isPrefixOf]

theorem stringsTrimSuffix_bang (k : String) : stringsTrimSuffix (k ++ "!") "!" = k := by
  unfold stringsTrimSuffix
  rw [if_pos (stringsHasSuffix_bang k)]
  apply String.ext
  rw [String.data_append]
  simp

theorem labelMatch_negated_eq (labels : List (String × String)) (k v : String)
    (h : '=' ∉ k.data) :
    labelMatch labels (k ++ "!=" ++ v) =
      labels.any (fun kv => decide (kv.1 = k) && decide (kv.2 ≠ v)) := by
  unfold labelMatch
  rw [stringsSplitN2_negated k v h]
  simp only [stringsHasSuffix_bang, stringsTrimSuffix_bang, if_true]

theorem labelMatch_clause_eq (labels : List (String × String)) (k v : String)
    (h : '=' ∉ k.data) (hb : stringsHasSuffix k "!" = false) :
    labelMatch labels (k ++ "=" ++ v) =
      labels.any (fun kv => decide (kv.1 = k) && (decide (v = "*") || decide (kv.2 = v))) := by
  unfold labelMatch
  rw [stringsSplitN2_clause k v h]
  simp only [hb, Bool.false_eq_true, if_false]

theorem labelMatch_bare_eq (labels : List (String × String)) (k : String)
    (h : '=' ∉ k.data) :
    labelMatch labels k = labels.any (fun kv => decide (kv.1 = k)) := by
  unfold labelMatch
  rw [stringsSplitN2_bare k h]
  simp

/-- C14. For a clause `k!=v` whose key `k` contains no `=`, `labelMatch` is true iff the
label map has the key `k` with a value different from `v`; so it is false whenever the key
is absent. -/
theorem labelMatch_negated (labels : List (String × String)) (k v : String)
    (h : '=' ∉ k.data) :
    (labelMatch labels (k ++ "!=" ++ v) = true ↔ ∃ v', (k, v') ∈ labels ∧ v' ≠ v) ∧
    ((∀ v', (k, v') ∉ labels) → labelMatch labels (k ++ "!=" ++ v) = false) := by
  have hiff : labelMatch labels (k ++ "!=" ++ v) = true ↔ ∃ v', (k, v') ∈ labels ∧ v' ≠ v := by
    rw [labelMatch_negated_eq labels k v h, List.any_eq_true]
    constructor
    · rintro ⟨⟨k', v'⟩, hmem, hkv⟩
      simp only [Bool.and_eq_true, decide_eq_true_eq] at hkv
      obtain ⟨rfl, hne⟩ := hkv
      exact ⟨v', hmem, hne⟩
    · rintro ⟨v', hmem, hne⟩
      exact ⟨(k, v'), hmem, by simp [hne]⟩
  refine ⟨hiff, ?_⟩
  intro habs
  rw [Bool.eq_false_iff]
  intro ht
  obtain ⟨v', hmem, _⟩ := hiff.1 ht
  exact habs v' hmem

/-- C14 at the inputs of the specification: labels `{"k":"v1"}` and clause `k!=v2`. -/
theorem labelMatch_negated_witness :
    '=' ∉ "k".data ∧
    ((labelMatch [("k", "v1")] ("k" ++ "!=" ++ "v2") = true ↔
        ∃ v', ("k", v') ∈ [(("k", "v1") : String × String)] ∧ v' ≠ "v2") ∧
      ((∀ v', ("k", v') ∉ [(("k", "v1") : String × String)]) →
        labelMatch [("k", "v1")] ("k" ++ "!=" ++ "v2") = false)) :=
  ⟨by decide, labelMatch_negated [("k", "v1")] "k" "v2" (by decide)⟩

/-- C15. For a key `k` that contains no `=` and does not end in `!`: the clause `k=v`
matches iff the label map has the key `k` with a value that is `v`, or with any value when
`v` is `*`; and the bare clause `k` matches exactly when `k=*` matches, that is iff the map
has the key `k`. -/
theorem labelMatch_positive (labels : List (String × String)) (k v : String)
    (h : '=' ∉ k.data) (hb : stringsHasSuffix k "!" = false) :
    (labelMatch labels (k ++ "=" ++ v) = true ↔
      ∃ v', (k, v') ∈ labels ∧ (v = "*" ∨ v' = v)) ∧
    labelMatch labels k = labelMatch labels (k ++ "=" ++ "*") ∧
    (labelMatch labels k = true ↔ ∃ v', (k, v') ∈ labels) := by
  refine ⟨?_, ?_, ?_⟩
  · rw [labelMatch_clause_eq labels k v h hb, List.any_eq_true]
    constructor
    · rintro ⟨⟨k', v'⟩, hmem, hkv⟩
      simp only [Bool.and_eq_true, Bool.or_eq_true, decide_eq_true_eq] at hkv
      obtain ⟨rfl, hv⟩ := hkv
      exact ⟨v', hmem, hv⟩
    · rintro ⟨v', hmem, hv⟩
      refine ⟨(k, v'), hmem, ?_⟩
      rcases hv with hv | hv <;> simp [hv]
  · rw [labelMatch_bare_eq labels k h, labelMatch_clause_eq labels k "*" h hb]
    simp
  · rw [labelMatch_bare_eq labels k h, List.any_eq_true]
    constructor
    · rintro ⟨⟨k', v'⟩, hmem, hkv⟩
      simp only [decide_eq_true_eq] at hkv
      subst hkv
      exact ⟨v', hmem⟩
    · rintro ⟨v', hmem⟩
      exact ⟨(k, v'), hmem, by simp⟩

/-- C15 at a concrete input: the key `app` and the value `book`. -/
theorem labelMatch_positive_witness :
    '=' ∉ "app".data ∧ stringsHasSuffix "app" "!" = false ∧
    ((labelMatch [("app", "book")] ("app" ++ "=" ++ "book") = true ↔
        ∃ v', ("app", v') ∈ [(("app", "book") : String × String)] ∧
          ("book" = "*" ∨ v' = "book")) ∧
      labelMatch [("app", "book")] "app" =
        labelMatch [("app", "book")] ("app" ++ "=" ++ "*") ∧
      (labelMatch [("app", "book")] "app" = true ↔
        ∃ v', ("app", v') ∈ [(("app", "book") : String × String)])) :=
  ⟨by decide, by decide, labelMatch_positive [("app", "book")] "app" "book" (by decide)
    (by decide)⟩

theorem labelsMatchLoop_eq (labels : List (String × String)) (clauses : List String)
    (m : Bool) :
    labelsMatchLoop labels clauses m =
      (m && clauses.all (fun c => labelMatch labels (stringsTrimSpace c))) := by
  induction clauses generalizing m with
  | nil => simp [labelsMatchLoop]
  | cons c rest ih =>
    simp only [labelsMatchLoop, List.all_cons]
    cases m
    · simp
    · cases h : labelMatch labels (stringsTrimSpace c)
      · simp
      · simp [ih]

theorem splitChars_ne_nil (sep : Char) (cs : List Char) : splitChars sep cs ≠ [] := by
  cases cs with
  | nil => simp [splitChars]
  | cons c rest =>
    simp only [splitChars]
    split
    · simp
    · split <;> simp

theorem unicodeIsSpace_iff (c : Char) :
    unicodeIsSpace c = true ↔
      c.toNat ∈ [9, 10, 11, 12, 13, 32, 133, 160, 5760, 8192, 8193, 8194, 8195, 8196, 8197,
        8198, 8199, 8200, 8201, 8202, 8232, 8233, 8239, 8287, 12288] := by
  unfold unicodeIsSpace
  simp only [Bool.or_eq_true, Bool.and_eq_true, decide_eq_true_eq, List.mem_cons,
    List.mem_singleton, List.not_mem_nil, or_false]
  omega

theorem stringsTrimSpace_data (c : String) :
    ∃ pre post : List Char,
      c.data = pre ++ (stringsTrimSpace c).data ++ post ∧
      (∀ x ∈ pre, unicodeIsSpace x = true) ∧ (∀ x ∈ post, unicodeIsSpace x = true) ∧
      (∀ x, (stringsTrimSpace c).data.head? = some x → unicodeIsSpace x = false) ∧
      (∀ x, (stringsTrimSpace c).data.getLast? = some x → unicodeIsSpace x = false) := by
  have hm : List.dropWhile unicodeIsSpace c.data =
      ((List.dropWhile unicodeIsSpace c.data).reverse.dropWhile unicodeIsSpace).reverse ++
        ((List.dropWhile unicodeIsSpace c.data).reverse.takeWhile unicodeIsSpace).reverse := by
    rw [← List.reverse_append, List.takeWhile_append_dropWhile, List.reverse_reverse]
  have hlast : ∀ x, (((List.dropWhile unicodeIsSpace c.data).reverse.dropWhile
      unicodeIsSpace).reverse).getLast? = some x → unicodeIsSpace x = false := by
    intro x hx
    rw [List.getLast?_reverse] at hx
    have := List.head?_dropWhile_not unicodeIsSpace (List.dropWhile unicodeIsSpace c.data).reverse
    rw [hx] at this
    exact this
  refine ⟨c.data.takeWhile unicodeIsSpace,
    ((List.dropWhile unicodeIsSpace c.data).reverse.takeWhile unicodeIsSpace).reverse,
    ?_, ?_, ?_, ?_, ?_⟩
  · show c.data = _ ++ ((List.dropWhile unicodeIsSpace c.data).reverse.dropWhile
      unicodeIsSpace).reverse ++ _
    rw [List.append_assoc, ← hm, List.takeWhile_append_dropWhile]
  · intro x hx
    exact List.mem_takeWhile_imp hx
  · intro x hx
    exact List.mem_takeWhile_imp (List.mem_reverse.1 hx)
  · intro x hx
    have hx' : (((List.dropWhile unicodeIsSpace c.data).reverse.dropWhile
      unicodeIsSpace).reverse).head? = some x := hx
    have hne : ((List.dropWhile unicodeIsSpace c.data).reverse.dropWhile
      unicodeIsSpace).reverse ≠ [] := by
      intro h; rw [h] at hx'; simp at hx'
    have h2 := @List.head?_append_of_ne_nil Char _
      ((List.dropWhile unicodeIsSpace c.data).reverse.takeWhile unicodeIsSpace).reverse hne
    rw [← hm, hx'] at h2
    have := List.head?_dropWhile_not unicodeIsSpace c.data
    rw [h2] at this
    exact this
  · intro x hx
    exact hlast x hx

theorem intercalate_splitChars (sep : Char) (cs : List Char) :
    List.intercalate [sep] (splitChars sep cs) = cs := by
  induction cs with
  | nil => simp [splitChars, List.intercalate]
  | cons c rest ih =>
    simp only [splitChars]
    split
    · rename_i h
      cases hsp : splitChars sep rest with
      | nil => exact absurd hsp (splitChars_ne_nil sep rest)
      | cons p ps =>
        rw [hsp] at ih
        simp [List.intercalate, List.intersperse] at ih ⊢
        exact ⟨h.symm, ih⟩
    · cases hsp : splitChars sep rest with
      | nil => exact absurd hsp (splitChars_ne_nil sep rest)
      | cons p ps =>
        rw [hsp] at ih
        cases ps with
        | nil => simp [List.intercalate, List.intersperse] at ih ⊢; exact ih
        | cons p2 ps2 => simp [List.intercalate, List.intersperse] at ih ⊢; exact ih

theorem splitChars_no_sep (sep : Char) (cs : List Char) :
    ∀ piece ∈ splitChars sep cs, sep ∉ piece := by
  induction cs with
  | nil => simp [splitChars]
  | cons c rest ih =>
    simp only [splitChars]
    split
    · intro piece hp
      rcases List.mem_cons.1 hp with rfl | hp
      · simp
      · exact ih piece hp
    · rename_i h
      cases hsp : splitChars sep rest with
      | nil => exact absurd hsp (splitChars_ne_nil sep rest)
      | cons p ps =>
        rw [hsp] at ih
        intro piece hp
        rcases List.mem_cons.1 hp with rfl | hp
        · intro hmem
          rcases List.mem_cons.1 hmem with e | e
          · exact h e.symm
          · exact ih p (List.mem_cons_self _ _) e
        · exact ih piece (List.mem_cons_of_mem _ hp)

/-- C16. The function `labelsMatch` is true iff every comma-separated clause of the filter
string, with its surrounding white space trimmed, is matched by `labelMatch` on the same
label map. The clauses are the pieces between the commas: they hold no comma and, joined by
commas, give the filter string back. The trimmed clause is the clause without the white
space before its first and after its last character that is no white space, white space
being the characters of Go's `unicode.IsSpace`. The `label` and `annotation` cases of
`DefaultObjectMetaFilter` are this predicate on the labels and on the annotations of the
object. -/
theorem labelsMatch_all (labels : List (String × String)) (s : String) :
    labelsMatch labels s =
      (stringsSplit s ',').all (fun c => labelMatch labels (stringsTrimSpace c)) ∧
    (labelsMatch labels s = true ↔
      ∀ c ∈ stringsSplit s ',', labelMatch labels (stringsTrimSpace c) = true) ∧
    (List.intercalate [','] ((stringsSplit s ',').map String.data) = s.data ∧
      ∀ c ∈ stringsSplit s ',', ',' ∉ c.data) ∧
    (∀ c : String, ∃ before after : List Char,
      c.data = before ++ (stringsTrimSpace c).data ++ after ∧
      (∀ x ∈ before, unicodeIsSpace x = true) ∧ (∀ x ∈ after, unicodeIsSpace x = true) ∧
      (∀ x, (stringsTrimSpace c).data.head? = some x → unicodeIsSpace x = false) ∧
      (∀ x, (stringsTrimSpace c).data.getLast? = some x → unicodeIsSpace x = false)) ∧
    (∀ x : Char, unicodeIsSpace x = true ↔
      x.toNat ∈ [9, 10, 11, 12, 13, 32, 133, 160, 5760, 8192, 8193, 8194, 8195, 8196, 8197,
        8198, 8199, 8200, 8201, 8202, 8232, 8233, 8239, 8287, 12288]) ∧
    (labelsMatch [("k", "v1"), ("a", "b")] "k=v1, a=b" = true ∧
      labelMatch [("k", "v1"), ("a", "b")] " a=b" = false ∧
      stringsTrimSpace " \t a=b \n" = "a=b" ∧
      stringsSplit "k=v1, a=b" ',' = ["k=v1", " a=b"]) ∧
    (∀ (item : ObjectMeta) (v : Value),
      DefaultObjectMetaFilter item { Field := FieldLabel, Value := v } =
        labelsMatch item.Labels v) ∧
    (∀ (item : ObjectMeta) (v : Value),
      DefaultObjectMetaFilter item { Field := FieldAnnotation, Value := v } =
        labelsMatch item.Annotations v) := by
  have hall : labelsMatch labels s =
      (stringsSplit s ',').all (fun c => labelMatch labels (stringsTrimSpace c)) := by
    unfold labelsMatch
    rw [labelsMatchLoop_eq]
    simp
  have hdata : (stringsSplit s ',').map String.data = splitChars ',' s.data := by
    unfold stringsSplit
    rw [List.map_map]
    exact List.map_id _
  refine ⟨hall, ?_, ⟨?_, ?_⟩, stringsTrimSpace_data, unicodeIsSpace_iff,
    ⟨by decide, by decide, by decide, by decide⟩, ?_, ?_⟩
  · rw [hall, List.all_eq_true]
  · rw [hdata]
    exact intercalate_splitChars ',' s.data
  · intro c hc
    have : c.data ∈ (stringsSplit s ',').map String.data := List.mem_map_of_mem _ hc
    rw [hdata] at this
    exact splitChars_no_sep ',' s.data c.data this
  · intro item v
    have e1 : ¬ FieldLabel = FieldNames := by decide
    have e2 : ¬ FieldLabel = FieldName := by decide
    have e3 : ¬ FieldLabel = FieldUID := by decide
    have e4 : ¬ FieldLabel = FieldNamespace := by decide
    have e5 : ¬ FieldLabel = FieldOwnerReference := by decide
    have e6 : ¬ FieldLabel = FieldOwnerKind := by decide
    have e7 : ¬ FieldLabel = FieldAnnotation := by decide
    unfold DefaultObjectMetaFilter
    simp only [if_neg e1, if_neg e2, if_neg e3, if_neg e4, if_neg e5, if_neg e6, if_neg e7,
      if_true]
  · intro item v
    have e1 : ¬ FieldAnnotation = FieldNames := by decide
    have e2 : ¬ FieldAnnotation = FieldName := by decide
    have e3 : ¬ FieldAnnotation = FieldUID := by decide
    have e4 : ¬ FieldAnnotation = FieldNamespace := by decide
    have e5 : ¬ FieldAnnotation = FieldOwnerReference := by decide
    have e6 : ¬ FieldAnnotation = FieldOwnerKind := by decide
    unfold DefaultObjectMetaFilter
    simp only [if_neg e1, if_neg e2, if_neg e3, if_neg e4, if_neg e5, if_neg e6, if_true]

theorem DefaultObjectMetaFilter_other (item : ObjectMeta) (filter : Filter)
    (h : filter.Field ∉ recognizedFilterFields) : DefaultObjectMetaFilter item filter = true := by
  simp only [recognizedFilterFields, List.mem_cons, List.mem_singleton, not_or,
    List.not_mem_nil, not_false_eq_true, and_true] at h
  obtain ⟨h1, h2, h3, h4, h5, h6, h7, h8⟩ := h
  unfold DefaultObjectMetaFilter
  rw [if_neg h1, if_neg h2, if_neg h3, if_neg h4, if_neg h5, if_neg h6, if_neg h7, if_neg h8]

theorem DefaultFilter_other (o : Object) (filter : Filter)
    (h : filter.Field ∉ recognizedFilterFields) (hn : o.isNil = false)
    (hm : o.GetObjectMeta.isSome = true) : DefaultFilter o filter = true := by
  obtain ⟨m, hm⟩ := Option.isSome_iff_exists.1 hm
  obtain ⟨k, s, rfl⟩ := GetObjectMeta_some o m hm
  simp [DefaultFilter, Object.isAccessor, Object.isNil, Object.GetObjectMeta,
    DefaultObjectMetaFilter_other m filter h]

theorem DefaultList_congr_filtered (sortSlice : SortSlice) (objects : List Object)
    (q q' : Query) (compareFunc : Option CompareFunc) (filterFunc : Option FilterFunc)
    (transformFuncs : List (Option TransformFunc))
    (hp : q'.Pagination = q.Pagination) (hs : q'.SortBy = q.SortBy)
    (ha : q'.Ascending = q.Ascending)
    (hf : (filterObjects filterFunc q'.Filters objects).1 =
      (filterObjects filterFunc q.Filters objects).1) :
    DefaultList sortSlice objects q' compareFunc filterFunc transformFuncs =
      DefaultList sortSlice objects q compareFunc filterFunc transformFuncs := by
  have hl : ∀ cf, lessOf cf q' = lessOf cf q := by
    intro cf; funext x y; simp [lessOf, hs, ha]
  have hfs : filteredSorted sortSlice objects q' compareFunc filterFunc =
      filteredSorted sortSlice objects q compareFunc filterFunc := by
    unfold filteredSorted sortObjects
    rw [hf]
    cases compareFunc with
    | none => rfl
    | some cf => simp only [hl]
  have he : effectivePagination q' = effectivePagination q := by
    unfold effectivePagination; rw [hp]
  unfold DefaultList DefaultListQ
  simp only [hfs, he]
  cases sliceRange (filteredSorted sortSlice objects q compareFunc filterFunc)
    (GetValidPagination (effectivePagination q)
      (filteredSorted sortSlice objects q compareFunc filterFunc).length).1
    (GetValidPagination (effectivePagination q)
      (filteredSorted sortSlice objects q compareFunc filterFunc).length).2 <;> rfl

/-- C17. For a filter field that is none of `names`, `name`, `uid`, `namespace`,
`ownerReference`, `ownerKind`, `annotation`, `label`, `DefaultObjectMetaFilter` is true for
every object metadata and value; hence, under the default filter and for objects that carry
metadata, a query with such a filter added (at any place of the filter map) gives the same
result of `DefaultList`, items and total, as the query without it. -/
theorem DefaultObjectMetaFilter_unrecognized (field : Field) (value : Value)
    (h : field ∉ recognizedFilterFields) :
    (∀ item : ObjectMeta,
      DefaultObjectMetaFilter item { Field := field, Value := value } = true) ∧
    (∀ (sortSlice : SortSlice) (objects : List Object) (q : Query)
      (compareFunc : Option CompareFunc) (transformFuncs : List (Option TransformFunc))
      (before after : List (Field × Value)),
      (∀ o ∈ objects, o.isNil = false → o.GetObjectMeta.isSome = true) →
      q.Filters = before ++ after →
      DefaultList sortSlice objects { q with Filters := before ++ (field, value) :: after }
          compareFunc (some DefaultFilter) transformFuncs =
        DefaultList sortSlice objects q compareFunc (some DefaultFilter) transformFuncs) := by
  refine ⟨fun item => DefaultObjectMetaFilter_other item _ h, ?_⟩
  intro sortSlice objects q compareFunc transformFuncs before after hmeta hq
  refine DefaultList_congr_filtered sortSlice objects q
    { q with Filters := before ++ (field, value) :: after } compareFunc (some DefaultFilter)
    transformFuncs rfl rfl rfl ?_
  rw [filterObjects_fst, filterObjects_fst, hq]
  apply List.filter_congr
  intro o ho
  simp only [keeps, List.all_append, List.all_cons]
  cases hn : o.isNil
  · have := DefaultFilter_other o { Field := field, Value := value } h hn (hmeta o ho hn)
    simp [passes, this]
  · simp

/-- C17 at a concrete input: the field `status` added to a query without filters. -/
theorem DefaultObjectMetaFilter_unrecognized_witness :
    "status" ∉ recognizedFilterFields ∧
    ((∀ item : ObjectMeta,
      DefaultObjectMetaFilter item { Field := "status", Value := "Running" } = true) ∧
    (∀ (sortSlice : SortSlice) (objects : List Object) (q : Query)
      (compareFunc : Option CompareFunc) (transformFuncs : List (Option TransformFunc))
      (before after : List (Field × Value)),
      (∀ o ∈ objects, o.isNil = false → o.GetObjectMeta.isSome = true) →
      q.Filters = before ++ after →
      DefaultList sortSlice objects
          { q with Filters := before ++ (("status", "Running") : Field × Value) :: after }
          compareFunc (some DefaultFilter) transformFuncs =
        DefaultList sortSlice objects q compareFunc (some DefaultFilter) transformFuncs)) :=
  ⟨by decide, DefaultObjectMetaFilter_unrecognized "status" "Running" (by decide)⟩

/-- C18. For the field `names`, `DefaultObjectMetaFilter` is true iff the name of the object
is equal to one of the pieces of the filter value split at the commas. The pieces hold no
comma and, joined by commas, give the value back; a piece is compared as it stands, so a
name with a space before it or a name that is only part of a piece does not match. -/
theorem DefaultObjectMetaFilter_names (item : ObjectMeta) (v : Value) :
    (DefaultObjectMetaFilter item { Field := FieldNames, Value := v } = true ↔
      item.Name ∈ stringsSplit v ',') ∧
    (List.intercalate [','] ((stringsSplit v ',').map String.data) = v.data ∧
      ∀ piece ∈ stringsSplit v ',', ',' ∉ piece.data) ∧
    (DefaultFilter (sampleObject "b" "" 0) { Field := FieldNames, Value := "a,b" } = true ∧
      DefaultFilter (sampleObject "b" "" 0) { Field := FieldNames, Value := "a, b" } = false ∧
      DefaultFilter (sampleObject "b" "" 0) { Field := FieldNames, Value := "a,bc" } = false) := by
  have hdata : (stringsSplit v ',').map String.data = splitChars ',' v.data := by
    unfold stringsSplit
    rw [List.map_map]
    exact List.map_id _
  refine ⟨?_, ⟨?_, ?_⟩, ⟨by decide, by decide, by decide⟩⟩
  · unfold DefaultObjectMetaFilter
    rw [if_pos rfl, List.any_eq_true]
    constructor
    · rintro ⟨name, hmem, hname⟩
      rw [decide_eq_true_eq] at hname
      rw [hname]; exact hmem
    · intro hmem
      exact ⟨item.Name, hmem, by simp⟩
  · rw [hdata]
    exact intercalate_splitChars ',' v.data
  · intro piece hp
    have : piece.data ∈ (stringsSplit v ',').map String.data := List.mem_map_of_mem _ hp
    rw [hdata] at this
    exact splitChars_no_sep ',' v.data piece.data this

/-! ## The transform chain -/

theorem nilFilter_map_some (ts : List TransformFunc) : nilFilter (ts.map some) = ts := by
  induction ts with
  | nil => rfl
  | cons t rest ih => simp [nilFilter, ih]

theorem transformLoop_append (ts : List TransformFunc) (tn : TransformFunc) (obj : Object)
    (transferred : Transferred) :
    transformLoop (ts ++ [tn]) obj transferred = tn (threadedObject ts obj) := by
  induction ts generalizing obj transferred with
  | nil =>
    simp only [List.nil_append, transformLoop, threadedObject]
    cases (tn obj).asObject <;> rfl
  | cons t rest ih =>
    simp only [List.cons_append, transformLoop, threadedObject]
    cases (t obj).asObject with
    | none => exact ih obj _
    | some o => exact ih o _

theorem transformObject_chain (ts : List TransformFunc) (tn : TransformFunc) (obj : Object) :
    transformObject ((ts ++ [tn]).map some) obj = tn (threadedObject ts obj) := by
  unfold transformObject effectiveTransforms
  rw [nilFilter_map_some, if_neg (by simp)]
  exact transformLoop_append ts tn obj _

theorem threadedObject_objects (gs : List (Object → Object))
    (hg : ∀ g ∈ gs, ∀ x, g x ≠ Object.nilInterface) (obj : Object) :
    threadedObject (gs.map (fun g x => Transferred.object (g x))) obj =
      gs.foldl (fun o g => g o) obj := by
  induction gs generalizing obj with
  | nil => rfl
  | cons g rest ih =>
    have h1 : (Transferred.object (g obj)).asObject = some (g obj) := by
      have := hg g (List.mem_cons_self _ _) obj
      cases hgo : g obj <;> simp_all [Transferred.asObject]
    simp only [List.map_cons, threadedObject, h1, List.foldl_cons]
    exact ih (fun g' hg' => hg g' (List.mem_cons_of_mem _ hg')) (g obj)

/-- C19. For a chain of non-nil transforms `t1..tn` with `n >= 1`, the item `DefaultList`
stores for an object is the output of `tn`, applied to the most recent output of
`t1..t(n-1)` that is a `runtime.Object` (the object itself when there is none); when every
transform returns a `runtime.Object` the item is `tn(...t2(t1(object))...)`; and with no
pagination these are the items of the result, one for each kept object. -/
theorem DefaultList_transform_chain (ts : List TransformFunc) (tn : TransformFunc) :
    (∀ obj : Object,
      transformObject ((ts ++ [tn]).map some) obj = tn (threadedObject ts obj)) ∧
    (∀ (gs : List (Object → Object)) (gn : Object → Object) (obj : Object),
      (∀ g ∈ gs, ∀ x, g x ≠ Object.nilInterface) →
      transformObject
          ((gs.map (fun g x => Transferred.object (g x)) ++
            [fun x => Transferred.object (gn x)]).map some) obj =
        Transferred.object (gn (gs.foldl (fun o g => g o) obj))) ∧
    (∀ (sortSlice : SortSlice) (objects : List Object) (q : Query)
      (filterFunc : Option FilterFunc),
      DefaultList sortSlice objects { q with Pagination := none } none filterFunc
          ((ts ++ [tn]).map some) =
        some
          { Items := (objects.filter (keeps filterFunc q.Filters)).map
              (fun obj => tn (threadedObject ts obj))
            TotalItems := ((objects.filter (keeps filterFunc q.Filters)).length : Int) }) := by
  refine ⟨transformObject_chain ts tn, ?_, ?_⟩
  · intro gs gn obj hg
    rw [transformObject_chain, threadedObject_objects gs hg]
  · intro sortSlice objects q filterFunc
    rw [DefaultList_noPagination sortSlice objects { q with Pagination := none } none
      filterFunc ((ts ++ [tn]).map some) rfl]
    have hf : filteredSorted sortSlice objects { q with Pagination := none } none filterFunc =
        objects.filter (keeps filterFunc q.Filters) := by
      unfold filteredSorted sortObjects
      exact filterObjects_fst _ _ _
    rw [hf]
    have ht : transformObject ((ts ++ [tn]).map some) =
        fun obj => tn (threadedObject ts obj) := by
      funext obj; exact transformObject_chain ts tn obj
    rw [ht]

/-! ## A page beyond the range -/

theorem GetValidPagination_beyond (p : Pagination) (total : Int) (hp : p.Valid)
    (ht : 0 ≤ total) (ho : total ≤ p.Offset) :
    (GetValidPagination p total).2 - (GetValidPagination p total).1 = 0 := by
  rcases hp with rfl | ⟨hl, _⟩
  · have : total = 0 := by
      simp only [NoPagination] at ho; omega
    subst this
    simp [GetValidPagination]
  · have hne : p.Limit ≠ NoPagination.Limit := by
      simp only [NoPagination]; omega
    unfold GetValidPagination
    rw [if_neg hne]
    by_cases h : p.Offset > total
    · rw [if_pos h]; rfl
    · rw [if_neg h]
      simp only []
      rw [if_pos (by omega)]
      simp only []
      omega

/-- C20. When the offset of the pagination is greater than or equal to the number of
objects that pass the filters, `DefaultList` returns no items, and `TotalItems` is still
the number of objects that pass the filters. The pagination is one the specification
allows. -/
theorem DefaultList_page_beyond_range (sortSlice : SortSlice) (hS : sortSlice.Conforms)
    (objects : List Object) (q : Query) (compareFunc : Option CompareFunc)
    (filterFunc : Option FilterFunc) (transformFuncs : List (Option TransformFunc))
    (hq : q.PaginationValid)
    (ho : ((objects.filter (keeps filterFunc q.Filters)).length : Int) ≤
      (effectivePagination q).Offset) :
    ∃ r, DefaultList sortSlice objects q compareFunc filterFunc transformFuncs = some r ∧
      r.Items = [] ∧
      r.TotalItems = ((objects.filter (keeps filterFunc q.Filters)).length : Int) := by
  have hlen := (filteredSorted_perm sortSlice hS objects q compareFunc filterFunc).length_eq
  refine ⟨_, DefaultList_eq sortSlice objects q compareFunc filterFunc transformFuncs hq, ?_, ?_⟩
  · simp only []
    rw [GetValidPagination_beyond _ _ hq (Int.natCast_nonneg _) (by rw [hlen]; exact ho)]
    simp
  · simp only []
    rw [hlen]

/-- C20 at the input of the specification: three templates and `page=10`. -/
theorem DefaultList_page_beyond_range_witness :
    sampleBeyondQuery.PaginationValid ∧
    ((sampleTemplates.filter (keeps (some DefaultFilter) sampleBeyondQuery.Filters)).length : Int)
      ≤ (effectivePagination sampleBeyondQuery).Offset ∧
    ∃ r, DefaultList shellInsertionSort sampleTemplates sampleBeyondQuery (some DefaultCompare)
        (some DefaultFilter) [] = some r ∧
      r.Items = [] ∧
      r.TotalItems =
        ((sampleTemplates.filter
          (keeps (some DefaultFilter) sampleBeyondQuery.Filters)).length : Int) :=
  ⟨by decide, by decide,
    DefaultList_page_beyond_range shellInsertionSort shellInsertionSort_conforms sampleTemplates
      sampleBeyondQuery (some DefaultCompare) (some DefaultFilter) [] (by decide) (by decide)⟩

/-! ## The query after `DefaultList` -/

/-- C21, as stated, fails: `DefaultList` receives a pointer to the query and assigns
`NoPagination` to a nil `Pagination`; after the call the pagination of the sample query is
not the nil it was before. -/
theorem DefaultList_query_unchanged_counterexample :
    sampleQuery.Pagination = none ∧
    (DefaultListQ shellInsertionSort sampleTemplates sampleQuery (some DefaultCompare) none
      []).1.Pagination = some NoPagination ∧
    (DefaultListQ shellInsertionSort sampleTemplates sampleQuery (some DefaultCompare) none
      []).1 ≠ sampleQuery := by
  refine ⟨rfl, ?_, ?_⟩
  · decide
  · decide

/-- C21, amended. `DefaultList` leaves `SortBy`, `Ascending`, `Filters` and `LabelSelector`
of the query unchanged, and the whole query unchanged when its `Pagination` is set; a nil
`Pagination` is replaced by `NoPagination`. -/
theorem DefaultList_query_frame (sortSlice : SortSlice) (objects : List Object) (q : Query)
    (compareFunc : Option CompareFunc) (filterFunc : Option FilterFunc)
    (transformFuncs : List (Option TransformFunc)) :
    (DefaultListQ sortSlice objects q compareFunc filterFunc transformFuncs).1.SortBy
      = q.SortBy ∧
    (DefaultListQ sortSlice objects q compareFunc filterFunc transformFuncs).1.Ascending
      = q.Ascending ∧
    (DefaultListQ sortSlice objects q compareFunc filterFunc transformFuncs).1.Filters
      = q.Filters ∧
    (DefaultListQ sortSlice objects q compareFunc filterFunc transformFuncs).1.LabelSelector
      = q.LabelSelector ∧
    (q.Pagination = none →
      (DefaultListQ sortSlice objects q compareFunc filterFunc transformFuncs).1.Pagination
        = some NoPagination) ∧
    (∀ p, q.Pagination = some p →
      (DefaultListQ sortSlice objects q compareFunc filterFunc transformFuncs).1 = q) := by
  have hq : (DefaultListQ sortSlice objects q compareFunc filterFunc transformFuncs).1 =
      { q with Pagination := some (effectivePagination q) } := by
    unfold DefaultListQ
    simp only []
    split <;> rfl
  rw [hq]
  refine ⟨rfl, rfl, rfl, rfl, ?_, ?_⟩
  · intro h
    simp [effectivePagination, h]
  · intro p h
    cases q
    simp only [effectivePagination] at h ⊢
    subst h
    rfl

/-! ## Objects without the metadata accessors -/

theorem DefaultFilter_not_accessor (o : Object) (filter : Filter)
    (h : o.isAccessor = false) : DefaultFilter o filter = false := by
  simp [DefaultFilter, h]

theorem keeps_DefaultFilter_not_accessor (o : Object) (filters : List (Field × Value))
    (h : o.isAccessor = false) (hf : filters ≠ []) :
    keeps (some DefaultFilter) filters o = false := by
  cases filters with
  | nil => exact absurd rfl hf
  | cons e rest =>
    simp [keeps, passes, DefaultFilter_not_accessor o _ h]

/-- C22. For an object without the metadata accessors the default filter is false for every
filter, so the object is not among the kept objects (nor in the sorted sequence the items
are taken from) whenever the query has a filter; and the default comparator returns false,
without a panic, whenever one of its operands is such an object. -/
theorem DefaultFilter_DefaultCompare_no_accessor (o : Object) (h : o.isAccessor = false) :
    (∀ filter : Filter, DefaultFilter o filter = false) ∧
    (∀ (objects : List Object) (q : Query), q.Filters ≠ [] →
      o ∉ (filterObjects (some DefaultFilter) q.Filters objects).1) ∧
    (∀ (sortSlice : SortSlice), sortSlice.Conforms →
      ∀ (objects : List Object) (q : Query) (compareFunc : Option CompareFunc),
        q.Filters ≠ [] →
        o ∉ filteredSorted sortSlice objects q compareFunc (some DefaultFilter)) ∧
    (∀ (other : Object) (f : Field),
      DefaultCompareRun o other f = some false ∧ DefaultCompareRun other o f = some false ∧
      DefaultCompare o other f = false ∧ DefaultCompare other o f = false) := by
  have hk : ∀ (objects : List Object) (q : Query), q.Filters ≠ [] →
      o ∉ objects.filter (keeps (some DefaultFilter) q.Filters) := by
    intro objects q hf hmem
    have := (List.mem_filter.1 hmem).2
    rw [keeps_DefaultFilter_not_accessor o q.Filters h hf] at this
    exact absurd this (by simp)
  have hrun : ∀ (other : Object) (f : Field),
      DefaultCompareRun o other f = some false ∧ DefaultCompareRun other o f = some false := by
    intro other f
    constructor
    · simp [DefaultCompareRun, h]
    · unfold DefaultCompareRun
      by_cases h1 : (!other.isAccessor) = true
      · rw [if_pos h1]
      · rw [if_neg h1, if_pos (by simp [h])]
  refine ⟨fun filter => DefaultFilter_not_accessor o filter h, ?_, ?_, ?_⟩
  · intro objects q hf
    rw [filterObjects_fst]
    exact hk objects q hf
  · intro sortSlice hS objects q compareFunc hf hmem
    exact hk objects q hf
      ((filteredSorted_perm sortSlice hS objects q compareFunc (some DefaultFilter)).mem_iff.1 hmem)
  · intro other f
    refine ⟨(hrun other f).1, (hrun other f).2, ?_, ?_⟩
    · simp [DefaultCompare, (hrun other f).1]
    · simp [DefaultCompare, (hrun other f).2]

/-- C22 at a concrete input: an object of a type without the accessors. -/
theorem DefaultFilter_DefaultCompare_no_accessor_witness :
    (Object.bare "Unstructured" "data").isAccessor = false ∧
    ((∀ filter : Filter, DefaultFilter (Object.bare "Unstructured" "data") filter = false) ∧
    (∀ (objects : List Object) (q : Query), q.Filters ≠ [] →
      Object.bare "Unstructured" "data" ∉
        (filterObjects (some DefaultFilter) q.Filters objects).1) ∧
    (∀ (sortSlice : SortSlice), sortSlice.Conforms →
      ∀ (objects : List Object) (q : Query) (compareFunc : Option CompareFunc),
        q.Filters ≠ [] →
        Object.bare "Unstructured" "data" ∉
          filteredSorted sortSlice objects q compareFunc (some DefaultFilter)) ∧
    (∀ (other : Object) (f : Field),
      DefaultCompareRun (Object.bare "Unstructured" "data") other f = some false ∧
      DefaultCompareRun other (Object.bare "Unstructured" "data") f = some false ∧
      DefaultCompare (Object.bare "Unstructured" "data") other f = false ∧
      DefaultCompare other (Object.bare "Unstructured" "data") f = false)) :=
  ⟨rfl, DefaultFilter_DefaultCompare_no_accessor (Object.bare "Unstructured" "data") rfl⟩

/-! ## `ParseQueryParameter` -/

/-- The model gives what `TestParseQueryParameter` expects in its four cases. -/
theorem ParseQueryParameter_test_cases :
    ParseQueryParameter sampleRequestNormal =
      { Pagination := some (newPagination 10 0), SortBy := FieldCreationTimeStamp,
        Ascending := true,
        Filters := [("label", "app.kubernetes.io/name=book"), ("name", "foo"),
          ("status", "Running")],
        LabelSelector := "" } ∧
    ParseQueryParameter sampleRequestInvalid =
      { Pagination := some NoPagination, SortBy := FieldCreationTimeStamp, Ascending := false,
        Filters := [("xxxx", "xxxx"), ("dsfsw", "xxxx")], LabelSelector := "" } ∧
    ParseQueryParameter [("start", "10"), ("limit", "10")] =
      { Pagination := some { Limit := 10, Offset := 10 }, SortBy := FieldCreationTimeStamp,
        Ascending := false, Filters := [("start", "10")], LabelSelector := "" } ∧
    ParseQueryParameter sampleRequestInvalidStart =
      { Pagination := some { Limit := 10, Offset := 0 }, SortBy := FieldCreationTimeStamp,
        Ascending := false, Filters := [("start", "a")], LabelSelector := "" } := by
  refine ⟨?_, ?_, ?_, ?_⟩ <;> decide

/-- C23. When the `page` parameter parses as an integer and the `limit` parameter parses as
a positive integer `L`, `ParseQueryParameter` gives the pagination with `Limit = L` and
`Offset = (max(page, 1) - 1) * L`. -/
theorem ParseQueryParameter_page_limit (request : List (String × String)) (page L : Int)
    (hp : strconvAtoi (queryParameter request ParameterPage) = some page)
    (hl : strconvAtoi (queryParameter request ParameterLimit) = some L) (hL : 0 < L) :
    (ParseQueryParameter request).Pagination =
      some { Limit := L, Offset := (max page 1 - 1) * L } := by
  have ho : 0 ≤ (max page 1 - 1) * L := by
    apply Int.mul_nonneg _ (le_of_lt hL)
    have := le_max_right page 1
    omega
  unfold ParseQueryParameter
  simp only [hp, hl, if_pos hL]
  unfold newPagination
  rw [if_neg (by omega), if_neg (by omega)]

/-- C23 at the input of the test: `page=1&limit=10` gives limit 10 and offset 0. -/
theorem ParseQueryParameter_page_limit_witness :
    strconvAtoi (queryParameter sampleRequestNormal ParameterPage) = some 1 ∧
    strconvAtoi (queryParameter sampleRequestNormal ParameterLimit) = some 10 ∧
    (ParseQueryParameter sampleRequestNormal).Pagination =
      some { Limit := 10, Offset := (max 1 1 - 1) * 10 } :=
  ⟨by decide, by decide,
    ParseQueryParameter_page_limit sampleRequestNormal 1 10 (by decide) (by decide) (by decide)⟩

/-- C24, as stated, fails on the case "invalid page and limit parameter" of
`TestParseQueryParameter`: `page=abc`, `limit=add` and `ascending=ssss` do not parse, and
none of them is in the `Filters` of the query, which holds the two other keys only. -/
theorem ParseQueryParameter_unparsed_counterexample :
    strconvAtoi (queryParameter sampleRequestInvalid ParameterPage) = none ∧
    strconvAtoi (queryParameter sampleRequestInvalid ParameterLimit) = none ∧
    strconvParseBool (queryParameter sampleRequestInvalid ParameterAscending) = none ∧
    (ParseQueryParameter sampleRequestInvalid).Filters = [("xxxx", "xxxx"), ("dsfsw", "xxxx")] ∧
    (("page", "abc") : Field × Value) ∉ (ParseQueryParameter sampleRequestInvalid).Filters := by
  refine ⟨?_, ?_, ?_, ?_, ?_⟩ <;> decide

/-- C24, amended. The keys `page`, `limit`, `sortBy` and `ascending` are never recorded in
the `Filters` of the query `ParseQueryParameter` returns, whether their values parse or not;
every other parameter, the legacy `start` included, is recorded verbatim, and nothing else
is. -/
theorem ParseQueryParameter_Filters (request : List (String × String)) :
    (∀ key value, key ∈ [ParameterPage, ParameterLimit, ParameterOrderBy, ParameterAscending] →
      (key, value) ∉ (ParseQueryParameter request).Filters) ∧
    (∀ key value, (key, value) ∈ request →
      key ∉ [ParameterPage, ParameterLimit, ParameterOrderBy, ParameterAscending] →
      (key, value) ∈ (ParseQueryParameter request).Filters) ∧
    (∀ entry ∈ (ParseQueryParameter request).Filters, entry ∈ request) := by
  have hF : (ParseQueryParameter request).Filters = request.filter
      (fun kv => !decide (kv.1 ∈ [ParameterPage, ParameterLimit, ParameterOrderBy,
        ParameterAscending])) := rfl
  rw [hF]
  refine ⟨?_, ?_, ?_⟩
  · intro key value hk hmem
    have := (List.mem_filter.1 hmem).2
    simp only [Bool.not_eq_true', decide_eq_false_iff_not] at this
    exact this hk
  · intro key value hmem hk
    exact List.mem_filter.2 ⟨hmem, by simpa using hk⟩
  · intro entry hmem
    exact (List.mem_filter.1 hmem).1

/-- C25, as stated, fails on the case "have invalid parameter 'start'" of
`TestParseQueryParameter`: neither `page` nor `start` parses, and with `limit=10` the
pagination is `{Limit: 10, Offset: 0}`, not the sentinel. -/
theorem ParseQueryParameter_NoPagination_counterexample :
    strconvAtoi (queryParameter sampleRequestInvalidStart ParameterPage) = none ∧
    strconvAtoi (queryParameter sampleRequestInvalidStart ParameterStart) = none ∧
    (ParseQueryParameter sampleRequestInvalidStart).Pagination =
      some { Limit := 10, Offset := 0 } ∧
    (ParseQueryParameter sampleRequestInvalidStart).Pagination ≠ some NoPagination := by
  refine ⟨?_, ?_, ?_, ?_⟩ <;> decide

/-- C25, amended. When neither `page` nor `start` parses as an integer, the pagination of
the query `ParseQueryParameter` returns is decided by `limit`: it is the `NoPagination`
sentinel when `limit` does not parse either, and `newPagination(limit, 0)` when `limit`
parses, that is offset 0 with that limit when it is positive and with the default limit
otherwise. -/
theorem ParseQueryParameter_NoPagination (request : List (String × String))
    (hp : strconvAtoi (queryParameter request ParameterPage) = none)
    (hs : strconvAtoi (queryParameter request ParameterStart) = none) :
    (strconvAtoi (queryParameter request ParameterLimit) = none →
      (ParseQueryParameter request).Pagination = some NoPagination) ∧
    (∀ l : Int, strconvAtoi (queryParameter request ParameterLimit) = some l →
      (ParseQueryParameter request).Pagination = some (newPagination l 0) ∧
      (0 < l → (ParseQueryParameter request).Pagination = some { Limit := l, Offset := 0 }) ∧
      (l ≤ 0 →
        (ParseQueryParameter request).Pagination =
          some { Limit := DefaultLimit, Offset := 0 })) := by
  refine ⟨?_, ?_⟩
  · intro hl
    unfold ParseQueryParameter
    simp only [hp, hs, hl]
  · intro l hl
    have hpag : (ParseQueryParameter request).Pagination = some (newPagination l 0) := by
      unfold ParseQueryParameter
      simp only [hp, hs, hl]
      by_cases h : l > 0
      · rw [if_pos h]
      · rw [if_neg h]
        have h' : l ≤ 0 := by omega
        unfold newPagination
        rw [if_pos h', if_neg (show ¬ DefaultLimit ≤ 0 by decide)]
    refine ⟨hpag, ?_, ?_⟩
    · intro h
      rw [hpag]
      unfold newPagination
      rw [if_neg (by omega), if_neg (by omega)]
    · intro h
      rw [hpag]
      unfold newPagination
      rw [if_pos h, if_neg (by omega)]

/-- C25, amended, at the inputs of the tests: `page=abc&limit=add` without `start` gives the
sentinel, and for that request no limit is parsed. -/
theorem ParseQueryParameter_NoPagination_witness :
    strconvAtoi (queryParameter sampleRequestInvalid ParameterPage) = none ∧
    strconvAtoi (queryParameter sampleRequestInvalid ParameterStart) = none ∧
    ((strconvAtoi (queryParameter sampleRequestInvalid ParameterLimit) = none →
      (ParseQueryParameter sampleRequestInvalid).Pagination = some NoPagination) ∧
    (∀ l : Int, strconvAtoi (queryParameter sampleRequestInvalid ParameterLimit) = some l →
      (ParseQueryParameter sampleRequestInvalid).Pagination = some (newPagination l 0) ∧
      (0 < l →
        (ParseQueryParameter sampleRequestInvalid).Pagination =
          some { Limit := l, Offset := 0 }) ∧
      (l ≤ 0 →
        (ParseQueryParameter sampleRequestInvalid).Pagination =
          some { Limit := DefaultLimit, Offset := 0 }))) :=
  ⟨by decide, by decide,
    ParseQueryParameter_NoPagination sampleRequestInvalid (by decide) (by decide)⟩

/-! ## The PipelineRun comparator -/

/-- C26. On two PipelineRuns the list comparator is true iff the effective time of the left
one is after that of the right one, or the effective times are equal and the name of the
left one is lexicographically smaller; the effective time is the start time when it is set
and not zero, and the creation time otherwise; the sort field does not matter; and the
comparator is false, without a panic, when one operand is not a PipelineRun. -/
theorem PipelineRunComparator_spec (lm rm : ObjectMeta) (ls rs : Option Time) :
    (∀ f : Field,
      ∃ b, PipelineRunComparatorRun (Object.resource PipelineRunKind lm ls)
          (Object.resource PipelineRunKind rm rs) f = some b ∧
        (b = true ↔
          ((effectiveTime lm ls).After (effectiveTime rm rs) = true ∨
            ((effectiveTime lm ls).Equal (effectiveTime rm rs) = true ∧ lm.Name < rm.Name)))) ∧
    (∀ t : Time, ls = some t → t.IsZero = false → effectiveTime lm ls = t) ∧
    (ls = none ∨ (∃ t : Time, ls = some t ∧ t.IsZero = true) →
      effectiveTime lm ls = lm.CreationTimestamp) ∧
    (∀ (left right : Object) (f g : Field),
      PipelineRunComparatorRun left right f = PipelineRunComparatorRun left right g) ∧
    (∀ (left right : Object) (f : Field),
      left.isPipelineRun = false ∨ right.isPipelineRun = false →
      PipelineRunComparatorRun left right f = some false ∧
        PipelineRunComparator left right f = false) := by
  refine ⟨?_, ?_, ?_, ?_, ?_⟩
  · intro f
    have hk : (Object.resource PipelineRunKind lm ls).isPipelineRun = true := by
      simp [Object.isPipelineRun]
    have hk' : (Object.resource PipelineRunKind rm rs).isPipelineRun = true := by
      simp [Object.isPipelineRun]
    unfold PipelineRunComparatorRun
    simp only [hk, hk', Bool.not_true, Bool.false_eq_true, if_false]
    by_cases he : (effectiveTime lm ls).Equal (effectiveTime rm rs) = true
    · refine ⟨_, by rw [if_neg (by simp [he])], ?_⟩
      rw [stringsCompare_neg]
      constructor
      · intro h; exact Or.inr ⟨he, h⟩
      · rintro (h | h)
        · simp only [Time.Equal, Time.After, decide_eq_true_eq] at he h
          omega
        · exact h.2
    · refine ⟨_, by rw [if_pos (by simpa using he)], ?_⟩
      constructor
      · intro h; exact Or.inl h
      · rintro (h | h)
        · exact h
        · exact absurd h.1 he
  · intro t ht hz
    subst ht
    simp [effectiveTime, hz]
  · rintro (h | ⟨t, ht, hz⟩)
    · subst h; rfl
    · subst ht
      simp [effectiveTime, hz]
  · intro left right f g
    rfl
  · intro left right f h
    have hrun : PipelineRunComparatorRun left right f = some false := by
      unfold PipelineRunComparatorRun
      by_cases h1 : (!left.isPipelineRun) = true
      · rw [if_pos h1]
      · rw [if_neg h1]
        have hr : right.isPipelineRun = false := by
          rcases h with h | h
          · rw [h] at h1; exact absurd rfl h1
          · exact h
        rw [if_pos (by simp [hr])]
    exact ⟨hrun, by simp [PipelineRunComparator, hrun]⟩

/-! ## `IsValidPort` -/

theorem IsValidPort_iff (port : Int) : IsValidPort port = true ↔ 1 ≤ port ∧ port ≤ 65534 := by
  unfold IsValidPort
  rw [Bool.and_eq_true, decide_eq_true_eq, decide_eq_true_eq]
  omega

/-- C27 does not hold of the code: the port 65535, the greatest valid port number, is
rejected, because the function tests `port < 65535`. -/
theorem IsValidPort_65535 :
    IsValidPort 65535 = false ∧ IsValidPort 65534 = true ∧ IsValidPort 1 = true ∧
      IsValidPort 0 = false := by
  refine ⟨?_, ?_, ?_, ?_⟩ <;> decide

/-! ## The items are a rearrangement of the kept objects -/

/-- C28. With no pagination restriction and no transform, the items `DefaultList` returns
are a rearrangement of the kept objects: every object occurs among the items as many times
as among the kept objects, and every item is a kept object. -/
theorem DefaultList_Items_perm (sortSlice : SortSlice) (hS : sortSlice.Conforms)
    (objects : List Object) (q : Query) (compareFunc : Option CompareFunc)
    (filterFunc : Option FilterFunc)
    (hpag : q.Pagination = none ∨ q.Pagination = some NoPagination) :
    ∃ r, DefaultList sortSlice objects q compareFunc filterFunc [] = some r ∧
      List.Perm r.Items ((objects.filter (keeps filterFunc q.Filters)).map Transferred.object) ∧
      (∀ o : Object, r.Items.count (Transferred.object o) =
        (objects.filter (keeps filterFunc q.Filters)).count o) ∧
      (∀ item ∈ r.Items, ∃ o ∈ objects.filter (keeps filterFunc q.Filters),
        item = Transferred.object o) := by
  have hp : effectivePagination q = NoPagination := by
    rcases hpag with h | h <;> simp [effectivePagination, h]
  have ht : transformObject [] = Transferred.object := by
    funext o
    cases o <;> rfl
  have hperm : List.Perm
      ((filteredSorted sortSlice objects q compareFunc filterFunc).map Transferred.object)
      ((objects.filter (keeps filterFunc q.Filters)).map Transferred.object) :=
    (filteredSorted_perm sortSlice hS objects q compareFunc filterFunc).map _
  have hinj : Function.Injective Transferred.object := by
    intro a b hab
    cases hab
    rfl
  refine ⟨_, DefaultList_noPagination sortSlice objects q compareFunc filterFunc [] hp, ?_, ?_, ?_⟩
  · rw [ht]; exact hperm
  · intro o
    rw [ht]
    simp only []
    rw [hperm.count_eq, List.count_map_of_injective _ _ hinj]
  · intro item hitem
    rw [ht] at hitem
    have := hperm.mem_iff.1 hitem
    obtain ⟨o, ho, rfl⟩ := List.mem_map.1 this
    exact ⟨o, ho, rfl⟩

/-- C28 at a concrete input: the seven sample objects, two of which the comparator does not
order. -/
theorem DefaultList_Items_perm_witness :
    (sampleQuery.Pagination = none ∨ sampleQuery.Pagination = some NoPagination) ∧
    ∃ r, DefaultList shellInsertionSort sampleObjects sampleQuery (some DefaultCompare) none []
        = some r ∧
      List.Perm r.Items
        ((sampleObjects.filter (keeps none sampleQuery.Filters)).map Transferred.object) ∧
      (∀ o : Object, r.Items.count (Transferred.object o) =
        (sampleObjects.filter (keeps none sampleQuery.Filters)).count o) ∧
      (∀ item ∈ r.Items, ∃ o ∈ sampleObjects.filter (keeps none sampleQuery.Filters),
        item = Transferred.object o) :=
  ⟨Or.inl rfl,
    DefaultList_Items_perm shellInsertionSort shellInsertionSort_conforms sampleObjects
      sampleQuery (some DefaultCompare) none (Or.inl rfl)⟩

/-! ## `addToArrayInAnnotations` -/

/-- C29 does not hold of the code: with `a,valX` under the key, adding `val` leaves the map
as it is, because `,val` occurs in the text, though `val` is not one of its comma-separated
elements. -/
theorem addToArrayInAnnotations_substring :
    addToArrayInAnnotations (some [("key", "a,valX")]) "key" "val" = [("key", "a,valX")] ∧
    "val" ∉ stringsSplit "a,valX" ',' ∧
    mapGet (addToArrayInAnnotations (some [("key", "a,valX")]) "key" "val") "key" ≠
      some ("a,valX" ++ "," ++ "val") := by
  refine ⟨?_, ?_, ?_⟩ <;> decide

/-! ## Empty label maps -/

theorem labelMatch_nil (filter : String) : labelMatch [] filter = false := by
  simp [labelMatch]

theorem labelsMatch_nil (s : String) : labelsMatch [] s = false := by
  unfold labelsMatch
  rw [labelsMatchLoop_eq]
  have hne : stringsSplit s ',' ≠ [] := by
    unfold stringsSplit
    intro h
    exact splitChars_ne_nil ',' s.data (List.map_eq_nil_iff.1 h)
  cases hsp : stringsSplit s ',' with
  | nil => exact absurd hsp hne
  | cons c rest => simp [labelMatch_nil]

theorem DefaultObjectMetaFilter_label (item : ObjectMeta) (v : Value) :
    DefaultObjectMetaFilter item { Field := FieldLabel, Value := v } =
      labelsMatch item.Labels v := by
  have e1 : ¬ FieldLabel = FieldNames := by decide
  have e2 : ¬ FieldLabel = FieldName := by decide
  have e3 : ¬ FieldLabel = FieldUID := by decide
  have e4 : ¬ FieldLabel = FieldNamespace := by decide
  have e5 : ¬ FieldLabel = FieldOwnerReference := by decide
  have e6 : ¬ FieldLabel = FieldOwnerKind := by decide
  have e7 : ¬ FieldLabel = FieldAnnotation := by decide
  unfold DefaultObjectMetaFilter
  simp only [if_neg e1, if_neg e2, if_neg e3, if_neg e4, if_neg e5, if_neg e6, if_neg e7,
    if_true]

theorem DefaultObjectMetaFilter_annotation (item : ObjectMeta) (v : Value) :
    DefaultObjectMetaFilter item { Field := FieldAnnotation, Value := v } =
      labelsMatch item.Annotations v := by
  have e1 : ¬ FieldAnnotation = FieldNames := by decide
  have e2 : ¬ FieldAnnotation = FieldName := by decide
  have e3 : ¬ FieldAnnotation = FieldUID := by decide
  have e4 : ¬ FieldAnnotation = FieldNamespace := by decide
  have e5 : ¬ FieldAnnotation = FieldOwnerReference := by decide
  have e6 : ¬ FieldAnnotation = FieldOwnerKind := by decide
  unfold DefaultObjectMetaFilter
  simp only [if_neg e1, if_neg e2, if_neg e3, if_neg e4, if_neg e5, if_neg e6, if_true]

theorem DefaultFilter_resource (k : String) (m : ObjectMeta) (s : Option Time)
    (filter : Filter) :
    DefaultFilter (Object.resource k m s) filter = DefaultObjectMetaFilter m filter := by
  simp [DefaultFilter, Object.isAccessor, Object.isNil, Object.GetObjectMeta]

/-- C30. For an empty label map `labelsMatch` is false for every filter string, the empty
string and negated clauses included; so under the default filter a `label` filter excludes
every object without labels, and an `annotation` filter every object without annotations. -/
theorem labelsMatch_empty (s : String) :
    labelsMatch [] s = false ∧
    labelsMatch [] "" = false ∧
    (∀ k v : String, labelsMatch [] (k ++ "!=" ++ v) = false) ∧
    (∀ (k : String) (m : ObjectMeta) (st : Option Time), m.Labels = [] →
      DefaultFilter (Object.resource k m st) { Field := FieldLabel, Value := s } = false) ∧
    (∀ (k : String) (m : ObjectMeta) (st : Option Time), m.Annotations = [] →
      DefaultFilter (Object.resource k m st) { Field := FieldAnnotation, Value := s }
        = false) := by
  refine ⟨labelsMatch_nil s, labelsMatch_nil "", fun k v => labelsMatch_nil _, ?_, ?_⟩
  · intro k m st hm
    rw [DefaultFilter_resource, DefaultObjectMetaFilter_label, hm]
    exact labelsMatch_nil s
  · intro k m st hm
    rw [DefaultFilter_resource, DefaultObjectMetaFilter_annotation, hm]
    exact labelsMatch_nil s

end KsDevops
